import Mathlib

/-!
Verification of the quorum-lab benchmark harness (`benchmark.py`).

The development shallowly embeds the pure and schedulable parts of the
script: phase-spec parsing, latency statistics, the per-phase breakdown,
the phased and sequential submission loops, and the receipt-worker row
construction.  Machine floats are modelled by `ℚ` (all rate/latency
arithmetic in the script is plain field arithmetic on finite values);
Python's `int()`/`float()` string conversions are modelled for finite
decimal literals (optional sign, digits, decimal point, exponent;
underscores, `inf` and `nan` are outside the model).  Wall-clock reads
(`time.perf_counter()`) are modelled by an arbitrary oracle `ℕ → ℚ`
consumed in program order by the submitting thread, and the concurrent
receipt workers are modelled by the row each queued submission
deterministically produces, with the shared result list taken to be an
arbitrary permutation of those rows (each queue item is consumed exactly
once and appended exactly once under the lock).
-/

namespace Quorum

/-- ASCII digit test, as Python `str.isdigit` behaves on the relevant inputs. -/
def isDigitC (c : Char) : Bool := 48 ≤ c.toNat && c.toNat ≤ 57

/-- Python `str.strip` / `int()` / `float()` whitespace: space and `\t\n\v\f\r`. -/
def isSpaceC (c : Char) : Bool := c.toNat == 32 || (9 ≤ c.toNat && c.toNat ≤ 13)

/-- ASCII lower-casing of one character, as Python `str.lower` acts on ASCII. -/
def lowerChar (c : Char) : Char :=
  if 65 ≤ c.toNat && c.toNat ≤ 90 then Char.ofNat (c.toNat + 32) else c

/-- Strip leading and trailing whitespace (Python `str.strip`). -/
def stripWS (cs : List Char) : List Char :=
  ((cs.dropWhile isSpaceC).reverse.dropWhile isSpaceC).reverse

/-- Numeric value of a digit string (most significant first). -/
def digitsVal (cs : List Char) : ℕ :=
  cs.foldl (fun acc c => 10 * acc + (c.toNat - 48)) 0

/-- A non-empty all-digit string. -/
def allDigits (cs : List Char) : Bool := !cs.isEmpty && cs.all isDigitC

/-- Python `int(s)` after whitespace stripping: optional sign then digits.
Modelled from the builtin for finite decimal literals (no underscores). -/
def intCore (cs : List Char) : Option ℤ :=
  match cs with
  | c :: rest =>
    if c = '+' then if allDigits rest then some (digitsVal rest) else none
    else if c = '-' then if allDigits rest then some (-(digitsVal rest : ℤ)) else none
    else if allDigits (c :: rest) then some (digitsVal (c :: rest)) else none
  | [] => none

/-- Python `int(s)` on a string. -/
def pythonInt? (s : String) : Option ℤ := intCore (stripWS s.toList)

/-- Exponent digits of a float literal: `mant * 10 ^ (±digits)`. -/
def expDigits (mant : ℚ) (negExp : Bool) (ds : List Char) : Option ℚ :=
  if allDigits ds then
    some (if negExp then mant / 10 ^ digitsVal ds else mant * 10 ^ digitsVal ds)
  else none

/-- Optional exponent suffix of a float literal (`e`/`E`, optional sign, digits). -/
def expPart (mant : ℚ) : List Char → Option ℚ
  | [] => some mant
  | c :: rest =>
    if c = 'e' ∨ c = 'E' then
      match rest with
      | b :: ds =>
        if b = '+' then expDigits mant false ds
        else if b = '-' then expDigits mant true ds
        else expDigits mant false (b :: ds)
      | [] => expDigits mant false []
    else none

/-- Unsigned mantissa (digits, optional point, optional fraction digits)
followed by an optional exponent; the whole input must be consumed. -/
def mantissa (cs : List Char) : Option ℚ :=
  let ip := cs.takeWhile isDigitC
  let rest := cs.dropWhile isDigitC
  match rest with
  | c :: rest2 =>
    if c = '.' then
      let fp := rest2.takeWhile isDigitC
      let rest3 := rest2.dropWhile isDigitC
      if ip.isEmpty && fp.isEmpty then none
      else expPart ((digitsVal ip : ℚ) + (digitsVal fp : ℚ) / 10 ^ fp.length) rest3
    else if ip.isEmpty then none
    else expPart (digitsVal ip) rest
  | [] => if ip.isEmpty then none else expPart (digitsVal ip) rest

/-- Python `float(s)` after whitespace stripping: optional sign then mantissa.
Modelled from the builtin for finite decimal literals (no underscores,
`inf` or `nan`). -/
def floatCore (cs : List Char) : Option ℚ :=
  match cs with
  | c :: rest =>
    if c = '+' then mantissa rest
    else if c = '-' then (mantissa rest).map (fun q => -q)
    else mantissa (c :: rest)
  | [] => mantissa []

/-- Python `float(s)` on a string. -/
def pythonFloat? (s : String) : Option ℚ := floatCore (stripWS s.toList)

/-- `spec.split(sep, 1)` when `sep` occurs: the part before the first
occurrence and the part after it. -/
def splitFirstAt (sep : Char) : List Char → List Char × List Char
  | [] => ([], [])
  | c :: cs =>
    if c = sep then ([], cs)
    else
      let p := splitFirstAt sep cs
      (c :: p.1, p.2)

/-- `l.endswith(suf)` on character lists. -/
def endsWithL (suf l : List Char) : Bool :=
  suf.length ≤ l.length && l.drop (l.length - suf.length) == suf

/-- Characters that may appear in a finite decimal float literal. -/
def validFloatChar (c : Char) : Prop :=
  isDigitC c = true ∨ c = '.' ∨ c = 'e' ∨ c = 'E' ∨ c = '+' ∨ c = '-'

/-- Result of `parse_phase_spec`: the dict `{count, tps, interval}`. -/
structure PhaseParsed where
  count : ℤ
  tps : ℚ
  interval : ℚ
  deriving DecidableEq

/-- `parse_phase_spec` from `benchmark.py` (lines 168-202): split the spec on
the first `@`, convert the count with `int()`, strip and lower-case the rate,
then dispatch on the `tps` / `s` suffix, rejecting non-positive rates. -/
def parse_phase_spec (spec : String) : Except String PhaseParsed :=
  let cs := spec.toList
  if '@' ∉ cs then
    .error ("Invalid phase specification '" ++ spec ++
      "'. Expected format COUNT@RATE (e.g. 6000@2tps).")
  else
    let parts := splitFirstAt '@' cs
    match intCore (stripWS parts.1) with
    | none =>
      .error ("Phase count must be an integer, received '" ++ String.mk parts.1 ++ "'.")
    | some count =>
      let rate_str := (stripWS parts.2).map lowerChar
      if endsWithL ['t', 'p', 's'] rate_str then
        match floatCore (stripWS (rate_str.take (rate_str.length - 3))) with
        | none =>
          .error ("Unable to parse TPS value from '" ++ String.mk parts.2 ++ "'.")
        | some tps =>
          if tps ≤ 0 then .error ("Phase TPS must be greater than zero.")
          else .ok ⟨count, tps, 1 / tps⟩
      else if endsWithL ['s'] rate_str then
        match floatCore (stripWS (rate_str.take (rate_str.length - 1))) with
        | none =>
          .error ("Unable to parse interval seconds from '" ++ String.mk parts.2 ++ "'.")
        | some interval =>
          if interval ≤ 0 then .error ("Phase interval must be greater than zero seconds.")
          else .ok ⟨count, 1 / interval, interval⟩
      else
        .error ("Unknown rate suffix in '" ++ String.mk parts.2 ++
          "'. Use values like '2tps' or '0.5s'.")

/-- The dict produced by `calculate_latency_stats` for a non-empty input. -/
structure LatencyStats where
  avg : ℚ
  p95 : ℚ
  max : ℚ
  count : ℕ
  deriving DecidableEq

/-- Relation used to model Python's ascending `sorted` / `list.sort` on numbers. -/
def ratLE (a b : ℚ) : Prop := a ≤ b

instance : DecidableRel ratLE := fun a b => inferInstanceAs (Decidable (a ≤ b))

instance : IsTotal ℚ ratLE := ⟨fun a b => le_total a b⟩

instance : IsTrans ℚ ratLE := ⟨fun _ _ _ h h2 => le_trans h h2⟩

/-- `percentile` (lines 226-231): sort ascending and take the element at
index `max 0 (ceil(fraction * n) - 1)`; the empty-list `ValueError` is
modelled by `none`. -/
def percentile (values : List ℚ) (fraction : ℚ) : Option ℚ :=
  if values.isEmpty then none
  else
    let ordered := List.insertionSort ratLE values
    let index : ℤ := max 0 (⌈fraction * values.length⌉ - 1)
    some (ordered.getD index.toNat 0)

/-- Python `max(xs)` on a non-empty list, folded left as the builtin does. -/
def pyMax (xs : List ℚ) : ℚ := xs.foldl max (xs.headD 0)

/-- `calculate_latency_stats` (lines 234-245): `None` on empty input,
otherwise mean, 95th percentile, max and count. -/
def calculate_latency_stats (latencies : List ℚ) : Option LatencyStats :=
  if latencies.isEmpty then none
  else
    some
      { avg := latencies.sum / latencies.length
        p95 := (percentile latencies (19 / 20)).getD 0
        max := pyMax latencies
        count := latencies.length }

/-- One parsed phase enriched with its label, as produced by
`build_phase_plan`. -/
structure PhaseSpecL where
  count : ℤ
  tps : ℚ
  interval : ℚ
  label : String
  deriving DecidableEq

/-- A result row as assembled by the benchmark loops and receipt workers
(the CSV-relevant fields). -/
structure Row where
  index : ℕ
  account : String
  tx_hash : Option String
  status : ℕ
  gas_used : Option ℕ
  latency_sec : Option ℚ
  token_id : Option ℤ
  proposal_id : Option ℤ
  labels : String
  phase : Option String
  submitted_sec : ℚ
  completed_sec : Option ℚ
  error : Option String
  deriving DecidableEq

/-- The dict value stored in the per-phase breakdown: either real stats or
the literal no-data dict `{count: 0, avg: None, p95: None, max: None}`. -/
structure StatsEntry where
  count : ℕ
  avg : Option ℚ
  p95 : Option ℚ
  max : Option ℚ
  deriving DecidableEq

/-- The no-data dict used on the right of `or` at lines 270-275. -/
def noDataEntry : StatsEntry := ⟨0, none, none, none⟩

/-- `calculate_latency_stats(bucket) or noData` (lines 270-275). -/
def entryOfStats : Option LatencyStats → StatsEntry
  | some s => ⟨s.count, some s.avg, some s.p95, some s.max⟩
  | none => noDataEntry

/-- `phase_latencies.setdefault(label, []).append(val)`: append to the
bucket of `k`, creating it at the end on first use (insertion-ordered dict). -/
def dictAppendLat : List (String × List ℚ) → String → ℚ → List (String × List ℚ)
  | [], k, v => [(k, [v])]
  | (k2, vs) :: rest, k, v =>
    if k2 = k then (k2, vs ++ [v]) :: rest else (k2, vs) :: dictAppendLat rest k v

/-- `phase_latencies.get(label, [])`. -/
def dictGetLat : List (String × List ℚ) → String → List ℚ
  | [], _ => []
  | (k2, vs) :: rest, k => if k2 = k then vs else dictGetLat rest k

/-- Python dict assignment `d[k] = v`: overwrite in place, else append. -/
def dictInsertEntry : List (String × StatsEntry) → String → StatsEntry →
    List (String × StatsEntry)
  | [], k, v => [(k, v)]
  | (k2, v2) :: rest, k, v =>
    if k2 = k then (k2, v) :: rest else (k2, v2) :: dictInsertEntry rest k v

/-- Dict lookup on the per-phase stats dict. -/
def dictGetEntry? : List (String × StatsEntry) → String → Option StatsEntry
  | [], _ => none
  | (k2, v2) :: rest, k => if k2 = k then some v2 else dictGetEntry? rest k

/-- Python truthiness of the optional phase label (`None` and `""` are falsy). -/
def truthyStr : Option String → Bool
  | none => false
  | some s => !(s == "")

/-- Python truthiness of the optional phase plan (`None` and `[]` are falsy). -/
def truthyPlan : Option (List PhaseSpecL) → Bool
  | none => false
  | some l => !l.isEmpty

/-- Loop body of lines 255-263: skip rows with null latency, append the
latency to the overall list, and bucket it by phase when both the plan and
the row's label are truthy. -/
def gatherStep (planTruthy : Bool) (acc : List ℚ × List (String × List ℚ)) (row : Row) :
    List ℚ × List (String × List ℚ) :=
  match row.latency_sec with
  | none => acc
  | some v =>
    if planTruthy && truthyStr row.phase then
      (acc.1 ++ [v], dictAppendLat acc.2 (row.phase.getD "") v)
    else (acc.1 ++ [v], acc.2)

/-- The overall-latency list and per-phase buckets of lines 252-263. -/
def gatherLatencies (results : List Row) (planTruthy : Bool) :
    List ℚ × List (String × List ℚ) :=
  results.foldl (gatherStep planTruthy) ([], [])

/-- `collect_latency_breakdown` (lines 248-276): overall stats over every
non-null latency, and one entry per phase-plan label (no-data dict when the
bucket is empty or absent). -/
def collect_latency_breakdown (results : List Row)
    (phase_plan : Option (List PhaseSpecL)) :
    Option LatencyStats × List (String × StatsEntry) :=
  let acc := gatherLatencies results (truthyPlan phase_plan)
  let overall_stats := calculate_latency_stats acc.1
  let phase_stats :=
    if truthyPlan phase_plan then
      (phase_plan.getD []).foldl
        (fun d entry =>
          dictInsertEntry d entry.label
            (entryOfStats (calculate_latency_stats (dictGetLat acc.2 entry.label))))
        []
    else []
  (overall_stats, phase_stats)

/-- Outcome of `contract.functions.vote(...).transact(...)` for one scheduled
call: an opaque transaction hash, or a raised exception message. -/
inductive SubmitOutcome where
  | ok (txHash : String)
  | err (msg : String)
  deriving DecidableEq

/-- Outcome of `web3.eth.wait_for_transaction_receipt` for one queued call:
a receipt (status, optional gasUsed, best-effort decoded VoteCast payload,
and the worker's `perf_counter()` completion reading), a `TimeExhausted`
timeout, or another raised exception. -/
inductive AwaitOutcome where
  | receipt (status : ℕ) (gasUsed : Option ℕ) (decoded : Option (ℤ × ℤ))
      (completionTime : ℚ)
  | timeout
  | err (msg : String)
  deriving DecidableEq

/-- The opaque RPC collaborator, keyed by schedule position. -/
structure Network where
  submit : ℕ → SubmitOutcome
  await : ℕ → AwaitOutcome

/-- One scheduled call of the phased benchmark (lines 671-683). -/
structure SchedItem where
  index : ℕ
  account : String
  interval : ℚ
  phase : String
  deriving DecidableEq

/-- Inner expansion of the phase plan: `voter_index` starts at `vi` and
advances once per generated call; `range(count)` of a Python int iterates
`count.toNat` times. -/
def buildScheduleAux (voters : List String) : List PhaseSpecL → ℕ → List SchedItem
  | [], _ => []
  | e :: rest, vi =>
    (List.range e.count.toNat).map
        (fun j => ⟨vi + j, voters.getD (vi + j) "", e.interval, e.label⟩)
      ++ buildScheduleAux voters rest (vi + e.count.toNat)

/-- The full schedule built at lines 671-683. -/
def build_schedule (plan : List PhaseSpecL) (voters : List String) : List SchedItem :=
  buildScheduleAux voters plan 0

/-- A work-queue item as enqueued at lines 614-623 / 716-725. -/
structure QueueItem where
  index : ℕ
  account : String
  tx_hash : String
  start_time : ℚ
  submission_time : ℚ
  phase : Option String
  deriving DecidableEq

/-- The row a receipt worker appends for one dequeued item
(`launch_receipt_worker.worker`, lines 484-571), by the await outcome:
receipt rows keep the receipt status and measured latency, timeout and
error rows are terminal failures with null latency. -/
def worker_row (outcome : AwaitOutcome) (label_string : String) (start_overall : ℚ)
    (item : QueueItem) : Row :=
  match outcome with
  | .receipt status gasUsed decoded completionTime =>
    { index := item.index
      account := item.account
      tx_hash := some item.tx_hash
      status := status
      gas_used := gasUsed
      latency_sec := some (completionTime - item.start_time)
      token_id := decoded.map Prod.fst
      proposal_id := decoded.map Prod.snd
      labels := label_string
      phase := item.phase
      submitted_sec := item.submission_time - start_overall
      completed_sec := some (completionTime - start_overall)
      error := none }
  | .timeout =>
    { index := item.index
      account := item.account
      tx_hash := some item.tx_hash
      status := 0
      gas_used := none
      latency_sec := none
      token_id := none
      proposal_id := none
      labels := label_string
      phase := item.phase
      submitted_sec := item.submission_time - start_overall
      completed_sec := none
      error := none }
  | .err msg =>
    { index := item.index
      account := item.account
      tx_hash := some item.tx_hash
      status := 0
      gas_used := none
      latency_sec := none
      token_id := none
      proposal_id := none
      labels := label_string
      phase := item.phase
      submitted_sec := item.submission_time - start_overall
      completed_sec := none
      error := some msg }

/-- The failure row synthesized inline by the submitter when `transact`
raises (lines 626-643 / 728-745). -/
def submit_failure_row (index : ℕ) (account : String) (label_string : String)
    (phase : Option String) (submitted_sec : ℚ) (msg : String) : Row :=
  { index := index
    account := account
    tx_hash := none
    status := 0
    gas_used := none
    latency_sec := none
    token_id := none
    proposal_id := none
    labels := label_string
    phase := phase
    submitted_sec := submitted_sec
    completed_sec := none
    error := some msg }

/-- One iteration of the phased submission loop, as the model records it:
the pacing check and sleep (if any), the deadline before and after the
`finally` update, whether the call reached the work queue, and the result
row the call eventually yields. -/
structure IterRecord where
  pos : ℕ
  schedIndex : ℕ
  checkedNow : Option ℚ
  slept : Option ℚ
  deadlineBefore : ℚ
  interval : ℚ
  attemptNow : ℚ
  deadlineAfter : ℚ
  queued : Bool
  row : Row
  deriving DecidableEq

/-- The phased submission loop (lines 700-751).  `clock` is the stream of
`time.perf_counter()` values the submitting thread observes, consumed in
program order: the pacing check (iterations after the first), the
iteration start, the submission timestamp, and the `finally` reading that
ratchets the deadline to `max(deadline + interval, now)`.  Queued calls
are resolved to the row their receipt worker will append. -/
def phasedLoop (net : Network) (clock : ℕ → ℚ) (label_string : String)
    (start_overall : ℚ) :
    List SchedItem → ℕ → ℚ → ℕ → List IterRecord
  | [], _, _, _ => []
  | item :: rest, pos, deadline, cpos =>
    let paceRead : Option ℚ := if 0 < pos then some (clock cpos) else none
    let cpos1 := if 0 < pos then cpos + 1 else cpos
    let slept : Option ℚ :=
      match paceRead with
      | some now => if 0 < deadline - now then some (deadline - now) else none
      | none => none
    let iteration_start := clock cpos1
    let submission_time := clock (cpos1 + 1)
    let attemptNow := clock (cpos1 + 2)
    let qr : Bool × Row :=
      match net.submit pos with
      | .ok txh =>
        (true,
         worker_row (net.await pos) label_string start_overall
           ⟨item.index, item.account, txh, iteration_start, submission_time,
             some item.phase⟩)
      | .err msg =>
        (false,
         submit_failure_row item.index item.account label_string (some item.phase)
           (submission_time - start_overall) msg)
    let deadline2 := max (deadline + item.interval) attemptNow
    { pos := pos
      schedIndex := item.index
      checkedNow := paceRead
      slept := slept
      deadlineBefore := deadline
      interval := item.interval
      attemptNow := attemptNow
      deadlineAfter := deadline2
      queued := qr.1
      row := qr.2 } ::
      phasedLoop net clock label_string start_overall rest (pos + 1) deadline2 (cpos1 + 3)

/-- Total calls demanded by the plan, as summed at line 665 (a Python int). -/
def total_required (plan : List PhaseSpecL) : ℤ := (plan.map (·.count)).sum

/-- `"|".join(labels)` (empty string when no labels). -/
def label_string_of (labels : List String) : String := String.intercalate "|" labels

/-- The trace of a full phased run: `start_overall` is the first clock
reading, the deadline starts at `start_overall`, and the schedule is the
plan expansion. -/
def phasedTrace (plan : List PhaseSpecL) (voters : List String) (labels : List String)
    (net : Network) (clock : ℕ → ℚ) : List IterRecord :=
  phasedLoop net clock (label_string_of labels) (clock 0)
    (build_schedule plan voters) 0 (clock 0) 1

/-- `execute_phased_benchmark` (lines 657-761) up to the final sort: the
insufficient-voters guard of lines 666-669, then the paced loop. -/
def execute_phased_model (plan : List PhaseSpecL) (voters : List String)
    (labels : List String) (net : Network) (clock : ℕ → ℚ) :
    Except String (List IterRecord) :=
  if (voters.length : ℤ) < total_required plan then
    .error ("Phase configuration requires " ++ toString (total_required plan) ++
      " voters but only " ++ toString voters.length ++ " were provided")
  else
    .ok (phasedTrace plan voters labels net clock)

/-- The sequential submission loop (lines 604-644): one call per voter in
order, no pacing; each iteration reads the clock for its start and its
submission timestamp. -/
def seqLoop (net : Network) (clock : ℕ → ℚ) (label_string : String)
    (start_overall : ℚ) :
    List String → ℕ → ℕ → List (Bool × Row)
  | [], _, _ => []
  | voter :: rest, index, cpos =>
    let iteration_start := clock cpos
    let submission_time := clock (cpos + 1)
    let qr : Bool × Row :=
      match net.submit index with
      | .ok txh =>
        (true,
         worker_row (net.await index) label_string start_overall
           ⟨index, voter, txh, iteration_start, submission_time, none⟩)
      | .err msg =>
        (false,
         submit_failure_row index voter label_string none
           (submission_time - start_overall) msg)
    qr :: seqLoop net clock label_string start_overall rest (index + 1) (cpos + 2)

/-- The trace of a full sequential run (`execute_sequential_benchmark`,
lines 583-654, up to the final sort). -/
def seqTrace (voters : List String) (labels : List String) (net : Network)
    (clock : ℕ → ℚ) : List (Bool × Row) :=
  seqLoop net clock (label_string_of labels) (clock 0) voters 0 1

/-- Relation used to model `results.sort(key=lambda item: item["index"])`. -/
def rowLE (a b : Row) : Prop := a.index ≤ b.index

instance : DecidableRel rowLE := fun a b => inferInstanceAs (Decidable (a.index ≤ b.index))

instance : IsTotal Row rowLE := ⟨fun a b => Nat.le_total a.index b.index⟩

instance : IsTrans Row rowLE := ⟨fun _ _ _ h h2 => Nat.le_trans h h2⟩

/-- Strict index order on rows. -/
def rowLT (a b : Row) : Prop := a.index < b.index

instance : IsAntisymm Row rowLT :=
  ⟨fun _ _ h h2 => absurd h2 (Nat.lt_asymm h)⟩

/-- `results.sort(key=lambda item: item["index"])` modelled by a stable sort. -/
def sort_by_index (l : List Row) : List Row := List.insertionSort rowLE l

/-- The latency list of line 1007: Python keeps a row's `latency_sec` iff it
is truthy, i.e. neither `None` nor `0.0`. -/
def success_latencies (results : List Row) : List ℚ :=
  results.filterMap
    (fun row =>
      match row.latency_sec with
      | some x => if x = 0 then none else some x
      | none => none)

/-- `success_count` of line 1008. -/
def success_count (results : List Row) : ℕ :=
  (results.filter (fun row => row.status == 1)).length

/-- Throughput of line 1010: `success_count / duration if duration > 0 else 0.0`. -/
def tps_estimate (successCount : ℕ) (duration : ℚ) : ℚ :=
  if 0 < duration then (successCount : ℚ) / duration else 0

/-- The console/summary latency statistics of lines 1019-1027 as a function
of the qualifying latency list: mean, p95 at index `max 0 (ceil(0.95 n) - 1)`
of the ascending sort, and the last sorted element as max. -/
def summary_stats_of (sl : List ℚ) : Option (ℚ × ℚ × ℚ) :=
  if sl.isEmpty then none
  else
    let sorted := List.insertionSort ratLE sl
    let idx : ℤ := max 0 (⌈(19 / 20 : ℚ) * sl.length⌉ - 1)
    some (sl.sum / sl.length, sorted.getD idx.toNat 0, sorted.getLastD 0)

/-- The console/summary latency statistics of lines 1019-1027; `none` when no
latency qualified. -/
def summary_latency_stats (results : List Row) : Option (ℚ × ℚ × ℚ) :=
  summary_stats_of (success_latencies results)

/-- A successful receipt row used to instantiate theorems. -/
def sampleRowOk : Row :=
  { index := 0
    account := "v0"
    tx_hash := some "h0"
    status := 1
    gas_used := some 21000
    latency_sec := some 2
    token_id := some 5
    proposal_id := some 0
    labels := ""
    phase := some "phaseA"
    submitted_sec := 1
    completed_sec := some 3
    error := none }

/-- A receipt row whose receipt reported failure status yet carries a
measured latency. -/
def sampleRowFailedStatus : Row :=
  { sampleRowOk with index := 1, status := 0, latency_sec := some 3 }

/-- A row whose measured latency is exactly zero. -/
def sampleRowZeroLatency : Row :=
  { sampleRowOk with index := 2, latency_sec := some 0 }

/-- A row with no terminal latency. -/
def sampleRowNullLatency : Row :=
  { sampleRowOk with index := 3, status := 0, latency_sec := none }

/-- Number of calls the phased schedule will actually generate
(`range(count)` of a Python int iterates `count.toNat` times). -/
def totalLen (plan : List PhaseSpecL) : ℕ :=
  (plan.map (fun e => e.count.toNat)).sum

/-- The pacing deadlines of consecutive loop iterations chain: each
iteration starts from the deadline the previous one left behind. -/
def DeadlineChained : ℚ → List IterRecord → Prop
  | _, [] => True
  | dl, r :: rest => r.deadlineBefore = dl ∧ DeadlineChained r.deadlineAfter rest

/-- A sample network: submission 1 raises, receipts succeed immediately. -/
def sampleNet : Network :=
  { submit := fun i => if i = 1 then .err "boom" else .ok "h"
    await := fun _ => .receipt 1 (some 21000) (some (5, 0)) 0 }

/-- A sample clock stream. -/
def sampleClock : ℕ → ℚ := fun n => n

/-- A two-phase plan used to instantiate theorems. -/
def samplePlan : List PhaseSpecL :=
  [⟨1, 1, 1, "phaseA"⟩, ⟨1, 2, 1 / 2, "phaseB"⟩]

end Quorum

namespace Quorum

theorem foldl_max_le_init (xs : List ℚ) (a : ℚ) : a ≤ xs.foldl max a := by
  induction xs generalizing a with
  | nil => simp
  | cons y ys ih => exact le_trans (le_max_left a y) (ih (max a y))

theorem foldl_max_le_mem (xs : List ℚ) (a x : ℚ) (hx : x ∈ xs) :
    x ≤ xs.foldl max a := by
  induction xs generalizing a with
  | nil => cases hx
  | cons y ys ih =>
    rcases List.mem_cons.mp hx with rfl | h
    · exact le_trans (le_max_right a x) (foldl_max_le_init ys (max a x))
    · exact ih _ h

theorem foldl_max_mem (xs : List ℚ) (a : ℚ) : xs.foldl max a ∈ a :: xs := by
  induction xs generalizing a with
  | nil => simp
  | cons y ys ih =>
    have h := ih (max a y)
    rw [List.foldl_cons]
    rcases List.mem_cons.mp h with h1 | h1
    · rw [h1]
      rcases max_choice a y with h2 | h2 <;> simp [h2]
    · exact List.mem_cons_of_mem _ (List.mem_cons_of_mem _ h1)

theorem pyMax_mem (xs : List ℚ) (h : xs ≠ []) : pyMax xs ∈ xs := by
  cases xs with
  | nil => exact absurd rfl h
  | cons y ys =>
    unfold pyMax
    have := foldl_max_mem (y :: ys) ((y :: ys).headD 0)
    rcases List.mem_cons.mp this with h1 | h1
    · rw [h1]; simp
    · exact h1

theorem le_pyMax (xs : List ℚ) (x : ℚ) (hx : x ∈ xs) : x ≤ pyMax xs := by
  cases xs with
  | nil => cases hx
  | cons y ys => exact foldl_max_le_mem _ _ _ hx

/-- The p95 index of `percentile` stays inside a non-empty list. -/
theorem p95_index_lt (n : ℕ) (hn : 1 ≤ n) :
    (max 0 (⌈(19 / 20 : ℚ) * n⌉ - 1)).toNat < n := by
  have hceil : ⌈(19 / 20 : ℚ) * n⌉ ≤ (n : ℤ) := by
    rw [Int.ceil_le]
    push_cast
    nlinarith [Nat.cast_nonneg (α := ℚ) n]
  omega

theorem length_insertionSort_ratLE (l : List ℚ) :
    (List.insertionSort ratLE l).length = l.length :=
  (List.perm_insertionSort ratLE l).length_eq

/-- The concrete stats of the list `[1,...,10]`. -/
theorem calculate_latency_stats_ten :
    calculate_latency_stats [1, 2, 3, 4, 5, 6, 7, 8, 9, 10] =
      some ⟨11 / 2, 10, 10, 10⟩ := by
  have hceil : ⌈(19 / 20 : ℚ) * (((10 : ℕ) : ℚ))⌉ = 10 := by
    rw [Int.ceil_eq_iff] <;> norm_num
  have hsort : List.insertionSort ratLE ([1, 2, 3, 4, 5, 6, 7, 8, 9, 10] : List ℚ) =
      [1, 2, 3, 4, 5, 6, 7, 8, 9, 10] := by decide
  have hmax : pyMax ([1, 2, 3, 4, 5, 6, 7, 8, 9, 10] : List ℚ) = 10 := by decide
  have hceil2 : (⌈(19 / 2 : ℚ)⌉ : ℤ) = 10 := by
    rw [Int.ceil_eq_iff] <;> norm_num
  simp only [calculate_latency_stats, percentile, List.isEmpty_cons, List.length_cons,
    List.length_nil, hsort, hmax, Bool.false_eq_true, if_false]
  norm_num [hceil, hceil2]
  rfl

/-- C2 (amended): for every non-empty latency list the computed stats have
`p95` equal to the sorted element at index `max 0 (ceil(0.95 n) - 1)` (an
in-range index), `avg` equal to the arithmetic mean, `max` equal to the
largest element and `count` equal to `n`; for `[1,...,10]` the index is `9`
and the stats are `p95 = 10`, `avg = 11/2`, `max = 10`, `count = 10`. -/
theorem spec_C2_latency_stats :
    (∀ values : List ℚ, values ≠ [] →
      ∃ s, calculate_latency_stats values = some s ∧
        s.avg = values.sum / values.length ∧
        s.count = values.length ∧
        s.max ∈ values ∧ (∀ x ∈ values, x ≤ s.max) ∧
        (max 0 (⌈(19 / 20 : ℚ) * values.length⌉ - 1)).toNat < values.length ∧
        s.p95 = (List.insertionSort ratLE values).getD
          (max 0 (⌈(19 / 20 : ℚ) * values.length⌉ - 1)).toNat 0) ∧
    calculate_latency_stats [1, 2, 3, 4, 5, 6, 7, 8, 9, 10] =
      some ⟨11 / 2, 10, 10, 10⟩ ∧
    (max 0 (⌈(19 / 20 : ℚ) * ((10 : ℕ) : ℚ)⌉ - 1)).toNat = 9 := by
  refine ⟨?_, calculate_latency_stats_ten, ?_⟩
  · intro values hne
    have hemp : values.isEmpty = false := by
      simpa [List.isEmpty_iff] using hne
    have hn : 1 ≤ values.length := by
      cases values with
      | nil => exact absurd rfl hne
      | cons a l => simp
    refine ⟨⟨values.sum / values.length, (percentile values (19 / 20)).getD 0,
        pyMax values, values.length⟩, ?_, rfl, rfl,
      pyMax_mem values hne, fun x hx => le_pyMax values x hx,
      p95_index_lt values.length hn, ?_⟩
    · simp [calculate_latency_stats, hemp]
    · simp [percentile, hemp]
  · have hceil : ⌈(19 / 20 : ℚ) * (((10 : ℕ) : ℚ))⌉ = 10 := by
      rw [Int.ceil_eq_iff] <;> norm_num
    rw [hceil]
    rfl

/-- C2 counterexample: the claim's concrete instance is wrong — for
`[1,...,10]` the code's p95 index is `ceil(0.95*10) - 1 = 9`, so the
computed p95 is `10`, not `9`. -/
theorem spec_C2_counterexample :
    (calculate_latency_stats [1, 2, 3, 4, 5, 6, 7, 8, 9, 10]).map
        LatencyStats.p95 = some 10 ∧
    ¬ (calculate_latency_stats [1, 2, 3, 4, 5, 6, 7, 8, 9, 10]).map
        LatencyStats.p95 = some 9 := by
  rw [calculate_latency_stats_ten]
  refine ⟨rfl, ?_⟩
  intro h
  have h2 : (10 : ℚ) = 9 := by simpa using h
  norm_num at h2

/-- C2 witness: the general part of the amended claim instantiated at the
three-element list `[3, 1, 2]`. -/
theorem spec_C2_latency_stats_witness :
    (([3, 1, 2] : List ℚ) ≠ []) ∧
    (∃ s, calculate_latency_stats [3, 1, 2] = some s ∧
      s.avg = ([3, 1, 2] : List ℚ).sum / ([3, 1, 2] : List ℚ).length ∧
      s.count = ([3, 1, 2] : List ℚ).length ∧
      s.max ∈ ([3, 1, 2] : List ℚ) ∧ (∀ x ∈ ([3, 1, 2] : List ℚ), x ≤ s.max) ∧
      (max 0 (⌈(19 / 20 : ℚ) * ([3, 1, 2] : List ℚ).length⌉ - 1)).toNat <
        ([3, 1, 2] : List ℚ).length ∧
      s.p95 = (List.insertionSort ratLE [3, 1, 2]).getD
        (max 0 (⌈(19 / 20 : ℚ) * ([3, 1, 2] : List ℚ).length⌉ - 1)).toNat 0) :=
  ⟨by decide, spec_C2_latency_stats.1 [3, 1, 2] (by decide)⟩

/-- C7: the reported throughput is `success_count / duration` whenever the
wall-clock duration is strictly positive, and exactly `0` whenever the
duration is zero or negative; no division is ever attempted in the latter
case. -/
theorem spec_C7_throughput (results : List Row) (d : ℚ) :
    (0 < d → tps_estimate (success_count results) d = (success_count results : ℚ) / d) ∧
    (d ≤ 0 → tps_estimate (success_count results) d = 0) := by
  constructor
  · intro h
    simp [tps_estimate, h]
  · intro h
    simp [tps_estimate, not_lt.mpr h]

/-- C7 witness: the throughput rule evaluated for one successful row at
durations `2` and `0`. -/
theorem spec_C7_throughput_witness :
    tps_estimate (success_count [sampleRowOk]) 2 =
      (success_count [sampleRowOk] : ℚ) / 2 ∧
    tps_estimate (success_count [sampleRowOk]) 0 = 0 :=
  ⟨(spec_C7_throughput [sampleRowOk] 2).1 (by norm_num),
   (spec_C7_throughput [sampleRowOk] 0).2 (by norm_num)⟩

/-- C9: latency statistics on an empty list yield the no-data result `none`
rather than an error — for `calculate_latency_stats`, for `percentile`
(whose empty-input `ValueError` is the `none` branch), and for the overall
slot of the per-phase breakdown when no row carries a latency. -/
theorem spec_C9_empty_no_data :
    calculate_latency_stats ([] : List ℚ) = none ∧
    (∀ f : ℚ, percentile [] f = none) ∧
    (∀ plan : List PhaseSpecL,
      (collect_latency_breakdown [] (some plan)).1 = none) :=
  ⟨rfl, fun _ => rfl, fun _ => rfl⟩

theorem mem_dropWhile_of_neg (p : Char → Bool) (l : List Char) (c : Char)
    (hc : c ∈ l) (hp : p c = false) : c ∈ l.dropWhile p := by
  induction l with
  | nil => cases hc
  | cons a t ih =>
    rw [List.dropWhile_cons]
    by_cases ha : p a = true
    · rw [if_pos ha]
      rcases List.mem_cons.mp hc with rfl | h
      · rw [ha] at hp
        cases hp
      · exact ih h
    · rw [if_neg ha]
      exact hc

theorem mem_stripWS (l : List Char) (c : Char) (hc : c ∈ l)
    (hp : isSpaceC c = false) : c ∈ stripWS l := by
  unfold stripWS
  rw [List.mem_reverse]
  refine mem_dropWhile_of_neg _ _ _ ?_ hp
  rw [List.mem_reverse]
  exact mem_dropWhile_of_neg _ _ _ hc hp

theorem expDigits_valid (m : ℚ) (b : Bool) (ds : List Char) (q : ℚ)
    (h : expDigits m b ds = some q) : ∀ c ∈ ds, isDigitC c = true := by
  unfold expDigits at h
  split at h
  case isTrue hall =>
    intro c hc
    have h2 := (Bool.and_eq_true _ _).mp hall
    exact List.all_eq_true.mp h2.2 c hc
  case isFalse => cases h

theorem expPart_valid (m : ℚ) (l : List Char) (q : ℚ) (h : expPart m l = some q) :
    ∀ c ∈ l, validFloatChar c := by
  cases l with
  | nil => intro c hc; cases hc
  | cons a rest =>
    intro c hc
    by_cases he : a = 'e' ∨ a = 'E'
    · rcases List.mem_cons.mp hc with rfl | hcr
      · rcases he with rfl | rfl
        · exact Or.inr (Or.inr (Or.inl rfl))
        · exact Or.inr (Or.inr (Or.inr (Or.inl rfl)))
      · cases rest with
        | nil => cases hcr
        | cons b ds =>
          simp only [expPart, if_pos he] at h
          by_cases hb : b = '+'
          · rw [if_pos hb] at h
            rcases List.mem_cons.mp hcr with rfl | hcd
            · rw [hb]
              exact Or.inr (Or.inr (Or.inr (Or.inr (Or.inl rfl))))
            · exact Or.inl (expDigits_valid _ _ _ _ h c hcd)
          · rw [if_neg hb] at h
            by_cases hb2 : b = '-'
            · rw [if_pos hb2] at h
              rcases List.mem_cons.mp hcr with rfl | hcd
              · rw [hb2]
                exact Or.inr (Or.inr (Or.inr (Or.inr (Or.inr rfl))))
              · exact Or.inl (expDigits_valid _ _ _ _ h c hcd)
            · rw [if_neg hb2] at h
              exact Or.inl (expDigits_valid _ _ _ _ h c hcr)
    · simp only [expPart, if_neg he] at h
      cases h

theorem mantissa_valid (cs : List Char) (q : ℚ) (h : mantissa cs = some q) :
    ∀ c ∈ cs, validFloatChar c := by
  intro c hc
  rw [← List.takeWhile_append_dropWhile (p := isDigitC) (l := cs)] at hc
  rcases List.mem_append.mp hc with htake | hdrop
  · exact Or.inl (List.mem_takeWhile_imp htake)
  · cases hdw : cs.dropWhile isDigitC with
    | nil =>
      rw [hdw] at hdrop
      cases hdrop
    | cons a rest2 =>
      rw [hdw] at hdrop
      simp only [mantissa, hdw] at h
      by_cases ha : a = '.'
      · rw [if_pos ha] at h
        split at h
        next => cases h
        next =>
          rcases List.mem_cons.mp hdrop with rfl | hr2
          · exact Or.inr (Or.inl ha)
          · rw [← List.takeWhile_append_dropWhile (p := isDigitC) (l := rest2)] at hr2
            rcases List.mem_append.mp hr2 with ht2 | hd2
            · exact Or.inl (List.mem_takeWhile_imp ht2)
            · exact expPart_valid _ _ _ h c hd2
      · rw [if_neg ha] at h
        split at h
        next => cases h
        next => exact expPart_valid _ _ _ h c hdrop

theorem floatCore_valid (cs : List Char) (q : ℚ) (h : floatCore cs = some q) :
    ∀ c ∈ cs, validFloatChar c := by
  intro c hc
  cases cs with
  | nil => cases hc
  | cons a rest =>
    rw [floatCore] at h
    by_cases ha : a = '+'
    · rw [if_pos ha] at h
      rcases List.mem_cons.mp hc with rfl | hcr
      · rw [ha]
        exact Or.inr (Or.inr (Or.inr (Or.inr (Or.inl rfl))))
      · exact mantissa_valid _ _ h c hcr
    · rw [if_neg ha] at h
      by_cases ha2 : a = '-'
      · rw [if_pos ha2] at h
        rcases Option.map_eq_some'.mp h with ⟨q2, hq2, _⟩
        rcases List.mem_cons.mp hc with rfl | hcr
        · rw [ha2]
          exact Or.inr (Or.inr (Or.inr (Or.inr (Or.inr rfl))))
        · exact mantissa_valid _ _ hq2 c hcr
      · rw [if_neg ha2] at h
        exact mantissa_valid _ _ h c hc

theorem floatCore_not_mem_at (cs : List Char) (q : ℚ)
    (h : floatCore cs = some q) : '@' ∉ cs := by
  intro hmem
  rcases floatCore_valid cs q h '@' hmem with h1 | h1 | h1 | h1 | h1 | h1 <;>
    exact absurd h1 (by decide)

theorem splitFirstAt_spec (sep : Char) (cs : List Char) (h : sep ∈ cs) :
    cs = (splitFirstAt sep cs).1 ++ sep :: (splitFirstAt sep cs).2 ∧
      sep ∉ (splitFirstAt sep cs).1 := by
  induction cs with
  | nil => cases h
  | cons c t ih =>
    rw [splitFirstAt]
    by_cases hc : c = sep
    · rw [if_pos hc, hc]
      exact ⟨rfl, by simp⟩
    · rw [if_neg hc]
      have hmem : sep ∈ t := by
        rcases List.mem_cons.mp h with h2 | h2
        · exact absurd h2.symm hc
        · exact h2
      rcases ih hmem with ⟨heq, hnot⟩
      refine ⟨by rw [List.cons_append]; exact congrArg (c :: ·) heq, ?_⟩
      intro hin
      rcases List.mem_cons.mp hin with h2 | h2
      · exact hc h2.symm
      · exact hnot h2

theorem splitFirstAt_append (sep : Char) (cs rest : List Char) (h : sep ∉ cs) :
    splitFirstAt sep (cs ++ sep :: rest) = (cs, rest) := by
  induction cs with
  | nil => simp [splitFirstAt]
  | cons c t ih =>
    have hc : ¬ c = sep := fun hc => h (hc ▸ List.mem_cons_self c t)
    have ht : sep ∉ t := fun hm => h (List.mem_cons_of_mem c hm)
    rw [List.cons_append, splitFirstAt, if_neg hc, ih ht]

theorem endsWithL_decomp (suf l : List Char) (h : endsWithL suf l = true) :
    l = l.take (l.length - suf.length) ++ suf := by
  unfold endsWithL at h
  have h2 := (Bool.and_eq_true _ _).mp h
  have hdrop : l.drop (l.length - suf.length) = suf := by
    have := h2.2
    rwa [beq_iff_eq] at this
  conv_lhs => rw [← List.take_append_drop (l.length - suf.length) l]
  rw [hdrop]

theorem count_at_eq_one (cs q1 q2 : List Char)
    (hdec : cs = q1 ++ '@' :: q2) (h1 : '@' ∉ q1) (h2 : '@' ∉ q2) :
    cs.count '@' = 1 := by
  subst hdec
  rw [List.count_append, List.count_cons_self,
    List.count_eq_zero.mpr h1, List.count_eq_zero.mpr h2]

theorem rate_str_no_at (p2 : List Char) (tail rest : List Char) (v : ℚ)
    (hdec : (stripWS p2).map lowerChar = rest ++ tail)
    (htail : '@' ∉ tail)
    (hfl : floatCore (stripWS rest) = some v) : '@' ∉ p2 := by
  intro hp2
  have h1 : '@' ∈ stripWS p2 := mem_stripWS _ _ hp2 (by decide)
  have h2 : '@' ∈ (stripWS p2).map lowerChar :=
    List.mem_map.mpr ⟨'@', h1, by decide⟩
  rw [hdec] at h2
  rcases List.mem_append.mp h2 with h3 | h3
  · exact floatCore_not_mem_at _ _ hfl (mem_stripWS _ _ h3 (by decide))
  · exact htail h3

theorem success_latencies_mem (results : List Row) (x : ℚ) :
    x ∈ success_latencies results ↔
      ∃ r ∈ results, r.latency_sec = some x ∧ x ≠ 0 := by
  unfold success_latencies
  rw [List.mem_filterMap]
  constructor
  · rintro ⟨r, hr, hf⟩
    refine ⟨r, hr, ?_⟩
    rcases hlat : r.latency_sec with _ | y
    · rw [hlat] at hf
      cases hf
    · rw [hlat] at hf
      by_cases hy : y = 0
      · simp [hy] at hf
      · simp only [if_neg hy, Option.some.injEq] at hf
        subst hf
        exact ⟨rfl, hy⟩
  · rintro ⟨r, hr, hlat, hx⟩
    exact ⟨r, hr, by simp [hlat, hx]⟩

theorem success_latencies_eq_of_latencies_eq (results results2 : List Row)
    (h : results.map Row.latency_sec = results2.map Row.latency_sec) :
    success_latencies results = success_latencies results2 := by
  have key : ∀ rs : List Row, success_latencies rs =
      (rs.map Row.latency_sec).filterMap
        (fun o => match o with
          | some x => if x = 0 then none else some x
          | none => none) := by
    intro rs
    rw [List.filterMap_map]
    rfl
  rw [key, key, h]

/-- C10: a row's latency feeds the console/summary latency statistics iff
`latency_sec` is non-null and non-zero (Python truthiness at line 1007),
independently of the row's status: the statistics depend on the rows only
through their `latency_sec` fields, a failed-status row with a latency is
counted, and a zero-latency row is not. -/
theorem spec_C10_latency_truthiness :
    (∀ (results : List Row) (x : ℚ),
      x ∈ success_latencies results ↔
        ∃ r ∈ results, r.latency_sec = some x ∧ x ≠ 0) ∧
    (∀ results results2 : List Row,
      results.map Row.latency_sec = results2.map Row.latency_sec →
        success_latencies results = success_latencies results2 ∧
        summary_latency_stats results = summary_latency_stats results2) ∧
    success_latencies [sampleRowFailedStatus] = [3] ∧
    sampleRowFailedStatus.status = 0 ∧
    success_latencies [sampleRowZeroLatency] = [] ∧
    success_latencies [sampleRowNullLatency] = [] := by
  refine ⟨success_latencies_mem, ?_, by decide, by decide, by decide, by decide⟩
  intro results results2 h
  have hsl := success_latencies_eq_of_latencies_eq results results2 h
  exact ⟨hsl, by rw [summary_latency_stats, summary_latency_stats, hsl]⟩

/-- C10 witness: the truthiness rule applied to a two-row list containing a
failed-status row with latency `3` and a zero-latency row. -/
theorem spec_C10_latency_truthiness_witness :
    ((3 : ℚ) ∈ success_latencies [sampleRowFailedStatus, sampleRowZeroLatency] ↔
      ∃ r ∈ [sampleRowFailedStatus, sampleRowZeroLatency],
        r.latency_sec = some 3 ∧ (3 : ℚ) ≠ 0) ∧
    ([sampleRowFailedStatus] : List Row).map Row.latency_sec =
      [sampleRowFailedStatus].map Row.latency_sec ∧
    summary_latency_stats [sampleRowFailedStatus] =
      summary_latency_stats [sampleRowFailedStatus] :=
  ⟨spec_C10_latency_truthiness.1 [sampleRowFailedStatus, sampleRowZeroLatency] 3,
   rfl,
   (spec_C10_latency_truthiness.2.1 [sampleRowFailedStatus] [sampleRowFailedStatus]
      rfl).2⟩

theorem dropWhile_eq_self_of (p : Char → Bool) (l : List Char)
    (h : ∀ c ∈ l, p c = false) : l.dropWhile p = l := by
  cases l with
  | nil => rfl
  | cons a t =>
    rw [List.dropWhile_cons, if_neg]
    rw [h a (List.mem_cons_self a t)]
    simp

theorem stripWS_eq_self (l : List Char) (h : ∀ c ∈ l, isSpaceC c = false) :
    stripWS l = l := by
  unfold stripWS
  rw [dropWhile_eq_self_of _ _ h,
    dropWhile_eq_self_of _ _ (fun c hc => h c (List.mem_reverse.mp hc)),
    List.reverse_reverse]

theorem isSpaceC_false_of_simple (c : Char) (h : isDigitC c = true ∨ c = '.') :
    isSpaceC c = false := by
  rcases h with h | h
  · have h1 : 48 ≤ c.toNat ∧ c.toNat ≤ 57 := by
      simpa [isDigitC, Bool.and_eq_true, decide_eq_true_eq] using h
    simp only [isSpaceC, Bool.or_eq_false_iff, Bool.and_eq_false_iff]
    constructor
    · simp only [beq_eq_false_iff_ne, ne_eq]
      omega
    · right
      simp only [decide_eq_false_iff_not, not_le]
      omega
  · rw [h]
    decide

theorem lowerChar_eq_self_of_simple (c : Char) (h : isDigitC c = true ∨ c = '.') :
    lowerChar c = c := by
  rcases h with h | h
  · have h1 : 48 ≤ c.toNat ∧ c.toNat ≤ 57 := by
      simpa [isDigitC, Bool.and_eq_true, decide_eq_true_eq] using h
    unfold lowerChar
    rw [if_neg]
    simp only [Bool.and_eq_true, decide_eq_true_eq, not_and, not_le]
    omega
  · rw [h]
    decide

theorem map_lowerChar_id (l : List Char) (h : ∀ c ∈ l, lowerChar c = c) :
    l.map lowerChar = l := by
  induction l with
  | nil => rfl
  | cons a t ih =>
    rw [List.map_cons, h a (List.mem_cons_self a t),
      ih (fun c hc => h c (List.mem_cons_of_mem a hc))]

theorem endsWithL_append_self (suf l : List Char) :
    endsWithL suf (l ++ suf) = true := by
  unfold endsWithL
  rw [Bool.and_eq_true]
  constructor
  · rw [decide_eq_true_eq, List.length_append]
    omega
  · rw [List.length_append, Nat.add_sub_cancel, List.drop_left]
    exact beq_self_eq_true suf

theorem take_append_self (suf l : List Char) :
    (l ++ suf).take ((l ++ suf).length - suf.length) = l := by
  rw [List.length_append, Nat.add_sub_cancel, List.take_left]

theorem endsWithL_tps_s_false (ds : List Char)
    (h : ∀ d ∈ ds, isDigitC d = true ∨ d = '.') :
    endsWithL ['t', 'p', 's'] (ds ++ ['s']) = false := by
  by_contra hc
  have htrue : endsWithL ['t', 'p', 's'] (ds ++ ['s']) = true := by
    revert hc
    cases endsWithL ['t', 'p', 's'] (ds ++ ['s']) <;> simp
  have hdec := endsWithL_decomp _ _ htrue
  set tk := (ds ++ ['s']).take ((ds ++ ['s']).length - 3) with htk
  have heq2 : ds ++ ['s'] = (tk ++ ['t', 'p']) ++ ['s'] := by
    rw [List.append_assoc]
    exact hdec
  have hinj := List.append_inj' heq2 rfl
  have hp : 'p' ∈ ds := by
    rw [hinj.1]
    simp
  rcases h 'p' hp with h1 | h1 <;> exact absurd h1 (by decide)

theorem floatCore_eq_mantissa_of_simple (ds : List Char)
    (h : ∀ d ∈ ds, isDigitC d = true ∨ d = '.') :
    floatCore ds = mantissa ds := by
  cases ds with
  | nil => rfl
  | cons d t =>
    have hd := h d (List.mem_cons_self d t)
    have h1 : ¬ d = '+' := by
      intro he
      subst he
      rcases hd with h2 | h2 <;> exact absurd h2 (by decide)
    have h2 : ¬ d = '-' := by
      intro he
      subst he
      rcases hd with h2 | h2 <;> exact absurd h2 (by decide)
    rw [floatCore, if_neg h1, if_neg h2]

/-- C3 (amended): parsing succeeds only when the specification contains
exactly one `@`, the count part converts as a Python integer (sign and zero
are not rejected), and the rate part carries a `tps` or `s` suffix whose
numeric value is strictly positive; violations raise `ValueError`, whose
message names the offending token for the missing-separator and
count-conversion failures, while the non-positive-rate checks raise fixed
messages. -/
theorem spec_C3_parse_contract :
    (∀ (s : String) (r : PhaseParsed) (p1 p2 rs : List Char),
      parse_phase_spec s = .ok r →
      (p1, p2) = splitFirstAt '@' s.toList →
      rs = (stripWS p2).map lowerChar →
      s.toList.count '@' = 1 ∧
      intCore (stripWS p1) = some r.count ∧
      0 < r.tps ∧ 0 < r.interval ∧
      ((endsWithL ['t', 'p', 's'] rs = true ∧
        floatCore (stripWS (rs.take (rs.length - 3))) = some r.tps ∧
        r.interval = 1 / r.tps) ∨
       (endsWithL ['t', 'p', 's'] rs = false ∧ endsWithL ['s'] rs = true ∧
        floatCore (stripWS (rs.take (rs.length - 1))) = some r.interval ∧
        r.tps = 1 / r.interval))) ∧
    (∀ s : String, '@' ∉ s.toList →
      parse_phase_spec s = .error ("Invalid phase specification '" ++ s ++
        "'. Expected format COUNT@RATE (e.g. 6000@2tps).")) ∧
    (∀ s : String, '@' ∈ s.toList →
      intCore (stripWS (splitFirstAt '@' s.toList).1) = none →
      parse_phase_spec s = .error ("Phase count must be an integer, received '" ++
        String.mk (splitFirstAt '@' s.toList).1 ++ "'.")) ∧
    parse_phase_spec "5@0tps" = .error "Phase TPS must be greater than zero." ∧
    parse_phase_spec "5@-2s" =
      .error "Phase interval must be greater than zero seconds." := by
  refine ⟨?_, ?_, ?_, rfl, rfl⟩
  · intro s r p1 p2 rs h hsplit hrs
    simp only [parse_phase_spec] at h
    split at h
    · cases h
    next hat2 =>
      have hat : '@' ∈ s.toList := not_not.mp hat2
      obtain ⟨hdec, hnot1⟩ := splitFirstAt_spec '@' s.toList hat
      rw [← hsplit] at hdec hnot1
      split at h
      · cases h
      next count heq =>
        rw [← hsplit] at heq
        split at h
        next hts =>
          rw [← hsplit, ← hrs] at hts
          split at h
          · cases h
          next tpsv hfl =>
            rw [← hsplit, ← hrs] at hfl
            split at h
            · cases h
            next hpos =>
              have hr : r = ⟨count, tpsv, 1 / tpsv⟩ := (Except.ok.inj h).symm
              subst hr
              have htpos : 0 < tpsv := not_le.mp hpos
              have hdecomp := endsWithL_decomp _ _ hts
              refine ⟨?_, heq, htpos, one_div_pos.mpr htpos, Or.inl ⟨hts, hfl, rfl⟩⟩
              exact count_at_eq_one _ _ _ hdec hnot1
                (rate_str_no_at p2 ['t', 'p', 's'] _ tpsv (hrs ▸ hdecomp) (by decide) hfl)
        next hts =>
          rw [← hsplit, ← hrs] at hts
          split at h
          next hss =>
            rw [← hsplit, ← hrs] at hss
            split at h
            · cases h
            next intv hfl =>
              rw [← hsplit, ← hrs] at hfl
              split at h
              · cases h
              next hpos =>
                have hr : r = ⟨count, 1 / intv, intv⟩ := (Except.ok.inj h).symm
                subst hr
                have hipos : 0 < intv := not_le.mp hpos
                have hdecomp := endsWithL_decomp _ _ hss
                refine ⟨?_, heq, one_div_pos.mpr hipos, hipos,
                  Or.inr ⟨by simpa using hts, hss, hfl, rfl⟩⟩
                exact count_at_eq_one _ _ _ hdec hnot1
                  (rate_str_no_at p2 ['s'] _ intv (hrs ▸ hdecomp) (by decide) hfl)
          · cases h
  · intro s h
    simp only [parse_phase_spec, if_pos h]
  · intro s hat hnone
    simp only [parse_phase_spec]
    rw [if_neg (not_not_intro hat), hnone]

/-- C3 counterexample: `"0@2tps"` has a non-positive count yet is accepted
rather than rejected with a configuration error. -/
theorem spec_C3_counterexample :
    parse_phase_spec "0@2tps" = .ok ⟨0, 2, 1 / 2⟩ ∧ ¬ (0 : ℤ) > 0 :=
  ⟨rfl, by decide⟩

/-- C3 witness: the success contract instantiated at `"6000@2tps"`. -/
theorem spec_C3_parse_contract_witness :
    parse_phase_spec "6000@2tps" = .ok ⟨6000, 2, 1 / 2⟩ ∧
    (("6000").toList, ("2tps").toList) = splitFirstAt '@' ("6000@2tps").toList ∧
    ("2tps").toList = (stripWS ("2tps").toList).map lowerChar ∧
    (("6000@2tps").toList.count '@' = 1 ∧
      intCore (stripWS ("6000").toList) =
        some (PhaseParsed.mk 6000 2 (1 / 2)).count ∧
      0 < (PhaseParsed.mk 6000 2 (1 / 2)).tps ∧
      0 < (PhaseParsed.mk 6000 2 (1 / 2)).interval ∧
      ((endsWithL ['t', 'p', 's'] ("2tps").toList = true ∧
        floatCore (stripWS (("2tps").toList.take (("2tps").toList.length - 3))) =
          some (PhaseParsed.mk 6000 2 (1 / 2)).tps ∧
        (PhaseParsed.mk 6000 2 (1 / 2)).interval =
          1 / (PhaseParsed.mk 6000 2 (1 / 2)).tps) ∨
       (endsWithL ['t', 'p', 's'] ("2tps").toList = false ∧
        endsWithL ['s'] ("2tps").toList = true ∧
        floatCore (stripWS (("2tps").toList.take (("2tps").toList.length - 1))) =
          some (PhaseParsed.mk 6000 2 (1 / 2)).interval ∧
        (PhaseParsed.mk 6000 2 (1 / 2)).tps =
          1 / (PhaseParsed.mk 6000 2 (1 / 2)).interval))) :=
  ⟨rfl, by decide, by decide,
   spec_C3_parse_contract.1 "6000@2tps" ⟨6000, 2, 1 / 2⟩
     ("6000").toList ("2tps").toList ("2tps").toList rfl (by decide) (by decide)⟩

theorem take_append_tps (ds : List Char) :
    (ds ++ ['t', 'p', 's']).take ((ds ++ ['t', 'p', 's']).length - 3) = ds := by
  have h : (ds ++ ['t', 'p', 's']).length - 3 = ds.length := by
    rw [List.length_append]
    rfl
  rw [h, List.take_left]

theorem take_append_s (ds : List Char) :
    (ds ++ ['s']).take ((ds ++ ['s']).length - 1) = ds := by
  have h : (ds ++ ['s']).length - 1 = ds.length := by
    rw [List.length_append]
    rfl
  rw [h, List.take_left]

theorem simple_suffix_facts (ds suffix : List Char)
    (hds : ∀ d ∈ ds, isDigitC d = true ∨ d = '.')
    (hsuf : ∀ d ∈ suffix, isSpaceC d = false ∧ lowerChar d = d) :
    stripWS (ds ++ suffix) = ds ++ suffix ∧
      (ds ++ suffix).map lowerChar = ds ++ suffix := by
  have hmem : ∀ d ∈ ds ++ suffix, isSpaceC d = false ∧ lowerChar d = d := by
    intro d hd
    rcases List.mem_append.mp hd with h1 | h1
    · exact ⟨isSpaceC_false_of_simple d (hds d h1),
        lowerChar_eq_self_of_simple d (hds d h1)⟩
    · exact hsuf d h1
  exact ⟨stripWS_eq_self _ (fun d hd => (hmem d hd).1),
    map_lowerChar_id _ (fun d hd => (hmem d hd).2)⟩

theorem parse_simple_tps (cs ds : List Char) (c : ℤ) (x : ℚ)
    (hint : intCore (stripWS cs) = some c) (hcs : '@' ∉ cs)
    (hds : ∀ d ∈ ds, isDigitC d = true ∨ d = '.')
    (hm : mantissa ds = some x) (hx : 0 < x) :
    parse_phase_spec (String.mk (cs ++ '@' :: (ds ++ ['t', 'p', 's']))) =
      .ok ⟨c, x, 1 / x⟩ := by
  have htl : (String.mk (cs ++ '@' :: (ds ++ ['t', 'p', 's']))).toList
      = cs ++ '@' :: (ds ++ ['t', 'p', 's']) := rfl
  have hat : '@' ∈ cs ++ '@' :: (ds ++ ['t', 'p', 's']) :=
    List.mem_append_right _ (List.mem_cons_self _ _)
  obtain ⟨hsw, hlc⟩ := simple_suffix_facts ds ['t', 'p', 's'] hds (by decide)
  have hfc : floatCore (stripWS ds) = some x := by
    rw [stripWS_eq_self ds
      (fun d hd => isSpaceC_false_of_simple d (hds d hd)),
      floatCore_eq_mantissa_of_simple ds hds]
    exact hm
  simp only [parse_phase_spec, htl]
  rw [if_neg (not_not_intro hat)]
  rw [splitFirstAt_append '@' cs _ hcs]
  simp only [hint, hsw, hlc, endsWithL_append_self, take_append_tps, hfc]
  rw [if_neg (not_le.mpr hx), if_pos trivial]

theorem parse_simple_s (cs ds : List Char) (c : ℤ) (x : ℚ)
    (hint : intCore (stripWS cs) = some c) (hcs : '@' ∉ cs)
    (hds : ∀ d ∈ ds, isDigitC d = true ∨ d = '.')
    (hm : mantissa ds = some x) (hx : 0 < x) :
    parse_phase_spec (String.mk (cs ++ '@' :: (ds ++ ['s']))) =
      .ok ⟨c, 1 / x, x⟩ := by
  have htl : (String.mk (cs ++ '@' :: (ds ++ ['s']))).toList
      = cs ++ '@' :: (ds ++ ['s']) := rfl
  have hat : '@' ∈ cs ++ '@' :: (ds ++ ['s']) :=
    List.mem_append_right _ (List.mem_cons_self _ _)
  obtain ⟨hsw, hlc⟩ := simple_suffix_facts ds ['s'] hds (by decide)
  have hfc : floatCore (stripWS ds) = some x := by
    rw [stripWS_eq_self ds
      (fun d hd => isSpaceC_false_of_simple d (hds d hd)),
      floatCore_eq_mantissa_of_simple ds hds]
    exact hm
  simp only [parse_phase_spec, htl]
  rw [if_neg (not_not_intro hat)]
  rw [splitFirstAt_append '@' cs _ hcs]
  simp only [hint, hsw, hlc, endsWithL_tps_s_false ds hds,
    endsWithL_append_self, take_append_s, hfc, Bool.false_eq_true, if_false]
  rw [if_neg (not_le.mpr hx), if_pos trivial]

theorem parse_ok_reciprocal (s : String) (r : PhaseParsed)
    (h : parse_phase_spec s = .ok r) :
    0 < r.tps ∧ 0 < r.interval ∧ r.interval = 1 / r.tps ∧ r.tps = 1 / r.interval := by
  simp only [parse_phase_spec] at h
  split at h
  · cases h
  next =>
    split at h
    · cases h
    next count heq =>
      split at h
      next hts =>
        split at h
        · cases h
        next tpsv hfl =>
          split at h
          · cases h
          next hpos =>
            have hr : r = ⟨count, tpsv, 1 / tpsv⟩ := (Except.ok.inj h).symm
            subst hr
            have hx : 0 < tpsv := not_le.mp hpos
            exact ⟨hx, one_div_pos.mpr hx, rfl, (one_div_one_div tpsv).symm⟩
      next hts =>
        split at h
        next hss =>
          split at h
          · cases h
          next intv hfl =>
            split at h
            · cases h
            next hpos =>
              have hr : r = ⟨count, 1 / intv, intv⟩ := (Except.ok.inj h).symm
              subst hr
              have hy : 0 < intv := not_le.mp hpos
              exact ⟨one_div_pos.mpr hy, hy, (one_div_one_div intv).symm, rfl⟩
        · cases h

/-- C8: every successful parse — either suffix branch of lines 180-202 —
yields a strictly positive reciprocal pair with `interval = 1/tps` and
`tps = 1/interval`; on valid inputs `N@Xtps` parses to `tps = X`,
`interval = 1/X` and `N@Ys` to `tps = 1/Y`, `interval = Y`; and the two
notations are round-trip consistent: specs whose rates satisfy `X = 1/Y`
parse to the same `(tps, interval)` pair. -/
theorem spec_C8_rate_notations :
    (∀ (s : String) (r : PhaseParsed), parse_phase_spec s = .ok r →
      0 < r.tps ∧ 0 < r.interval ∧
      r.interval = 1 / r.tps ∧ r.tps = 1 / r.interval) ∧
    (∀ (cs ds : List Char) (c : ℤ) (x : ℚ),
      intCore (stripWS cs) = some c →
      '@' ∉ cs →
      (∀ d ∈ ds, isDigitC d = true ∨ d = '.') →
      mantissa ds = some x →
      0 < x →
      parse_phase_spec (String.mk (cs ++ '@' :: (ds ++ ['t', 'p', 's']))) =
        .ok ⟨c, x, 1 / x⟩ ∧
      parse_phase_spec (String.mk (cs ++ '@' :: (ds ++ ['s']))) =
        .ok ⟨c, 1 / x, x⟩) ∧
    (∀ (cs cs2 ds es : List Char) (c c2 : ℤ) (x y : ℚ),
      intCore (stripWS cs) = some c → '@' ∉ cs →
      intCore (stripWS cs2) = some c2 → '@' ∉ cs2 →
      (∀ d ∈ ds, isDigitC d = true ∨ d = '.') →
      mantissa ds = some x → 0 < x →
      (∀ d ∈ es, isDigitC d = true ∨ d = '.') →
      mantissa es = some y → 0 < y →
      x = 1 / y →
      Except.map (fun r : PhaseParsed => (r.tps, r.interval))
          (parse_phase_spec (String.mk (cs ++ '@' :: (ds ++ ['t', 'p', 's'])))) =
        Except.map (fun r : PhaseParsed => (r.tps, r.interval))
          (parse_phase_spec (String.mk (cs2 ++ '@' :: (es ++ ['s']))))) := by
  refine ⟨parse_ok_reciprocal, ?_, ?_⟩
  · intro cs ds c x hint hcs hds hm hx
    exact ⟨parse_simple_tps cs ds c x hint hcs hds hm hx,
      parse_simple_s cs ds c x hint hcs hds hm hx⟩
  · intro cs cs2 ds es c c2 x y hint hcs hint2 hcs2 hds hm hx hes hm2 hy hxy
    rw [parse_simple_tps cs ds c x hint hcs hds hm hx,
      parse_simple_s cs2 es c2 y hint2 hcs2 hes hm2 hy]
    simp only [Except.map]
    rw [hxy, one_div_one_div]

/-- C8 witness: the constructed specs `"4@2tps"` and `"4@2s"`, the general
reciprocal facts at `"4@2tps"`, and the round trip between `"4@1tps"` and
`"8@1s"` (rates `X = 1`, `Y = 1`, so `X = 1/Y`), all hypotheses discharged
concretely. -/
theorem spec_C8_rate_notations_witness :
    parse_phase_spec "4@2tps" = .ok ⟨4, 2, 1 / 2⟩ ∧
    (0 < (PhaseParsed.mk 4 2 (1 / 2)).tps ∧
      0 < (PhaseParsed.mk 4 2 (1 / 2)).interval ∧
      (PhaseParsed.mk 4 2 (1 / 2)).interval = 1 / (PhaseParsed.mk 4 2 (1 / 2)).tps ∧
      (PhaseParsed.mk 4 2 (1 / 2)).tps = 1 / (PhaseParsed.mk 4 2 (1 / 2)).interval) ∧
    intCore (stripWS ("4").toList) = some 4 ∧
    mantissa ("2").toList = some 2 ∧ (0 : ℚ) < 2 ∧
    (parse_phase_spec (String.mk (("4").toList ++ '@' ::
        (("2").toList ++ ['t', 'p', 's']))) = .ok ⟨4, 2, 1 / 2⟩ ∧
      parse_phase_spec (String.mk (("4").toList ++ '@' ::
        (("2").toList ++ ['s']))) = .ok ⟨4, 1 / 2, 2⟩) ∧
    mantissa ("1").toList = some 1 ∧ (0 : ℚ) < 1 ∧ (1 : ℚ) = 1 / 1 ∧
    Except.map (fun r : PhaseParsed => (r.tps, r.interval))
        (parse_phase_spec (String.mk (("4").toList ++ '@' ::
          (("1").toList ++ ['t', 'p', 's'])))) =
      Except.map (fun r : PhaseParsed => (r.tps, r.interval))
        (parse_phase_spec (String.mk (("8").toList ++ '@' ::
          (("1").toList ++ ['s'])))) :=
  ⟨rfl,
   spec_C8_rate_notations.1 "4@2tps" ⟨4, 2, 1 / 2⟩ rfl,
   by decide, by decide, by decide,
   spec_C8_rate_notations.2.1 ("4").toList ("2").toList 4 2 (by decide) (by decide)
     (by decide) (by decide) (by decide),
   by decide, by decide, by norm_num,
   spec_C8_rate_notations.2.2 ("4").toList ("8").toList ("1").toList ("1").toList
     4 8 1 1 (by decide) (by decide) (by decide) (by decide) (by decide)
     (by decide) (by decide) (by decide) (by decide) (by decide) (by norm_num)⟩

theorem gather_fst (pt : Bool) (l : List Row) :
    ∀ acc : List ℚ × List (String × List ℚ),
      (List.foldl (gatherStep pt) acc l).1 = acc.1 ++ l.filterMap Row.latency_sec := by
  induction l with
  | nil => intro acc; simp
  | cons r t ih =>
    intro acc
    rw [List.foldl_cons, ih]
    have hstep : (gatherStep pt acc r).1 =
        acc.1 ++ (Row.latency_sec r).toList := by
      unfold gatherStep
      cases r.latency_sec with
      | none => simp
      | some v =>
        simp only [Option.toList_some]
        split <;> rfl
    rw [hstep, List.filterMap_cons]
    cases hl : r.latency_sec with
    | none => simp [hl]
    | some v => simp [hl]

theorem dictGetLat_append_same (d : List (String × List ℚ)) (k : String) (v : ℚ) :
    dictGetLat (dictAppendLat d k v) k = dictGetLat d k ++ [v] := by
  induction d with
  | nil => simp [dictAppendLat, dictGetLat]
  | cons e rest ih =>
    rcases e with ⟨k2, vs⟩
    by_cases h : k2 = k
    · rw [dictAppendLat, if_pos h, dictGetLat, if_pos h, dictGetLat, if_pos h]
    · rw [dictAppendLat, if_neg h, dictGetLat, if_neg h, dictGetLat, if_neg h, ih]

theorem dictGetLat_append_other (d : List (String × List ℚ)) (k k2 : String) (v : ℚ)
    (h : k2 ≠ k) : dictGetLat (dictAppendLat d k v) k2 = dictGetLat d k2 := by
  induction d with
  | nil =>
    simp only [dictAppendLat, dictGetLat]
    rw [if_neg (fun he : k = k2 => h he.symm)]
  | cons e rest ih =>
    rcases e with ⟨k3, vs⟩
    by_cases h3 : k3 = k
    · rw [dictAppendLat, if_pos h3, dictGetLat, dictGetLat]
      have hne : ¬ k3 = k2 := fun he => h (he.symm.trans h3)
      rw [if_neg hne, if_neg hne]
    · rw [dictAppendLat, if_neg h3, dictGetLat, dictGetLat]
      by_cases h4 : k3 = k2
      · rw [if_pos h4, if_pos h4]
      · rw [if_neg h4, if_neg h4, ih]

theorem gather_bucket (l : List Row) :
    ∀ (acc : List ℚ × List (String × List ℚ)) (k : String),
      dictGetLat (List.foldl (gatherStep true) acc l).2 k =
        dictGetLat acc.2 k ++ l.filterMap (fun r =>
          match r.latency_sec with
          | none => none
          | some v =>
            if truthyStr r.phase = true ∧ r.phase.getD "" = k then some v
            else none) := by
  induction l with
  | nil => intro acc k; simp
  | cons r t ih =>
    intro acc k
    rw [List.foldl_cons, ih, List.filterMap_cons]
    cases hl : r.latency_sec with
    | none =>
      have hstep : gatherStep true acc r = acc := by
        unfold gatherStep
        rw [hl]
      rw [hstep]
    | some v =>
      by_cases ht : truthyStr r.phase = true
      · have hstep : (gatherStep true acc r).2 =
            dictAppendLat acc.2 (r.phase.getD "") v := by
          unfold gatherStep
          rw [hl]
          simp only [Bool.true_and]
          rw [if_pos ht]
        rw [hstep]
        by_cases hk : r.phase.getD "" = k
        · rw [hk, dictGetLat_append_same]
          simp [ht, hk, List.append_assoc]
        · rw [dictGetLat_append_other _ _ _ _ (fun he => hk he.symm)]
          simp [ht, hk]
      · have hstep : (gatherStep true acc r).2 = acc.2 := by
          unfold gatherStep
          rw [hl]
          simp only [Bool.true_and]
          rw [if_neg ht]
        rw [hstep]
        simp [ht]

theorem dictGetEntry?_insert_same (d : List (String × StatsEntry)) (k : String)
    (v : StatsEntry) : dictGetEntry? (dictInsertEntry d k v) k = some v := by
  induction d with
  | nil => simp [dictInsertEntry, dictGetEntry?]
  | cons e rest ih =>
    rcases e with ⟨k2, v2⟩
    by_cases h : k2 = k
    · rw [dictInsertEntry, if_pos h, dictGetEntry?, if_pos h]
    · rw [dictInsertEntry, if_neg h, dictGetEntry?, if_neg h, ih]

theorem dictGetEntry?_insert_other (d : List (String × StatsEntry)) (k k2 : String)
    (v : StatsEntry) (h : k2 ≠ k) :
    dictGetEntry? (dictInsertEntry d k v) k2 = dictGetEntry? d k2 := by
  induction d with
  | nil =>
    simp only [dictInsertEntry, dictGetEntry?]
    rw [if_neg (fun he : k = k2 => h he.symm)]
  | cons e rest ih =>
    rcases e with ⟨k3, v3⟩
    by_cases h3 : k3 = k
    · rw [dictInsertEntry, if_pos h3, dictGetEntry?, dictGetEntry?]
      have hne : ¬ k3 = k2 := fun he => h (he.symm.trans h3)
      rw [if_neg hne, if_neg hne]
    · rw [dictInsertEntry, if_neg h3, dictGetEntry?, dictGetEntry?]
      by_cases h4 : k3 = k2
      · rw [if_pos h4, if_pos h4]
      · rw [if_neg h4, if_neg h4, ih]

theorem keys_insertEntry (d : List (String × StatsEntry)) (k j : String)
    (v : StatsEntry) :
    j ∈ (dictInsertEntry d k v).map Prod.fst ↔ j ∈ d.map Prod.fst ∨ j = k := by
  induction d with
  | nil => simp [dictInsertEntry]
  | cons e rest ih =>
    rcases e with ⟨k2, v2⟩
    by_cases h : k2 = k
    · subst h
      rw [dictInsertEntry, if_pos rfl]
      simp only [List.map_cons, List.mem_cons]
      tauto
    · rw [dictInsertEntry, if_neg h]
      simp only [List.map_cons, List.mem_cons, ih]
      tauto

theorem keys_fold_insert (g : String → StatsEntry) (plan : List PhaseSpecL) :
    ∀ (d : List (String × StatsEntry)) (j : String),
      (j ∈ (plan.foldl (fun d e => dictInsertEntry d e.label (g e.label)) d).map
          Prod.fst) ↔
        j ∈ d.map Prod.fst ∨ j ∈ plan.map PhaseSpecL.label := by
  induction plan with
  | nil => intro d j; simp
  | cons e rest ih =>
    intro d j
    rw [List.foldl_cons, ih, keys_insertEntry]
    simp only [List.map_cons, List.mem_cons]
    tauto

theorem get_fold_insert_not_mem (g : String → StatsEntry) (plan : List PhaseSpecL) :
    ∀ (d : List (String × StatsEntry)) (j : String),
      j ∉ plan.map PhaseSpecL.label →
      dictGetEntry? (plan.foldl (fun d e => dictInsertEntry d e.label (g e.label)) d)
        j = dictGetEntry? d j := by
  induction plan with
  | nil => intro d j _; rfl
  | cons e rest ih =>
    intro d j hj
    rw [List.map_cons] at hj
    rw [List.foldl_cons, ih _ _ (fun h => hj (List.mem_cons_of_mem _ h)),
      dictGetEntry?_insert_other _ _ _ _ (fun h => hj (List.mem_cons.mpr (Or.inl h)))]

theorem get_fold_insert_mem (g : String → StatsEntry) (plan : List PhaseSpecL) :
    ∀ (d : List (String × StatsEntry)) (j : String),
      j ∈ plan.map PhaseSpecL.label →
      dictGetEntry? (plan.foldl (fun d e => dictInsertEntry d e.label (g e.label)) d)
        j = some (g j) := by
  induction plan with
  | nil => intro d j hj; cases hj
  | cons e rest ih =>
    intro d j hj
    rw [List.foldl_cons]
    by_cases hr : j ∈ rest.map PhaseSpecL.label
    · exact ih _ _ hr
    · have hje : j = e.label := by
        rw [List.map_cons] at hj
        rcases List.mem_cons.mp hj with h | h
        · exact h
        · exact absurd h hr
      rw [get_fold_insert_not_mem g rest _ _ hr, hje, dictGetEntry?_insert_same]

theorem filterMap_congr_fun (f g : Row → Option ℚ) (l : List Row)
    (h : ∀ r, f r = g r) : l.filterMap f = l.filterMap g := by
  rw [funext h]

theorem bucket_fun_eq (k : String) (r : Row) :
    (match r.latency_sec with
     | none => none
     | some v =>
       if truthyStr r.phase = true ∧ r.phase.getD "" = k then some v else none) =
    (match r.latency_sec with
     | none => none
     | some v => if r.phase = some k ∧ k ≠ "" then some v else none) := by
  cases r.latency_sec with
  | none => rfl
  | some v =>
    simp only []
    rcases hp : r.phase with _ | s
    · rw [if_neg, if_neg]
      · simp
      · simp [truthyStr]
    · have hiff : (truthyStr (some s) = true ∧ (some s).getD "" = k) ↔
          (some s = some k ∧ k ≠ "") := by
        simp only [truthyStr, Option.getD_some, Bool.not_eq_true', beq_eq_false_iff_ne,
          ne_eq, decide_eq_true_eq, Option.some.injEq]
        constructor
        · rintro ⟨hne, rfl⟩
          exact ⟨rfl, hne⟩
        · rintro ⟨rfl, hne⟩
          exact ⟨hne, rfl⟩
      by_cases hc : some s = some k ∧ k ≠ ""
      · rw [if_pos (hiff.mpr hc), if_pos hc]
      · rw [if_neg (fun h => hc (hiff.mp h)), if_neg hc]

/-- C6: in the per-phase breakdown, rows with no (or empty) phase label feed
the overall statistics but no per-phase bucket; each plan label is a key of
the breakdown dict (the key set equals the configured label set), its bucket
holds exactly the latencies of rows carrying that label, and a label with no
latencies maps to the literal no-data entry `{count 0, avg/p95/max null}`. -/
theorem spec_C6_phase_breakdown (results : List Row) (plan : List PhaseSpecL)
    (hne : plan ≠ []) :
    (collect_latency_breakdown results (some plan)).1 =
      calculate_latency_stats (results.filterMap Row.latency_sec) ∧
    (∀ l : String,
      l ∈ (collect_latency_breakdown results (some plan)).2.map Prod.fst ↔
        l ∈ plan.map PhaseSpecL.label) ∧
    (∀ e ∈ plan,
      dictGetEntry? (collect_latency_breakdown results (some plan)).2 e.label =
        some (entryOfStats (calculate_latency_stats (results.filterMap (fun r =>
          match r.latency_sec with
          | none => none
          | some v =>
            if r.phase = some e.label ∧ e.label ≠ "" then some v else none))))) ∧
    (∀ e ∈ plan,
      results.filterMap (fun r =>
          match r.latency_sec with
          | none => none
          | some v =>
            if r.phase = some e.label ∧ e.label ≠ "" then some v else none) = [] →
        dictGetEntry? (collect_latency_breakdown results (some plan)).2 e.label =
          some noDataEntry) := by
  have hpt : truthyPlan (some plan) = true := by
    cases plan with
    | nil => exact absurd rfl hne
    | cons e t => simp [truthyPlan]
  have hbucket : ∀ k : String,
      dictGetLat (gatherLatencies results true).2 k =
        results.filterMap (fun r =>
          match r.latency_sec with
          | none => none
          | some v => if r.phase = some k ∧ k ≠ "" then some v else none) := by
    intro k
    unfold gatherLatencies
    rw [gather_bucket results ([], []) k]
    rw [filterMap_congr_fun _ _ results (bucket_fun_eq k)]
    rfl
  have hmain : ∀ e ∈ plan,
      dictGetEntry? (collect_latency_breakdown results (some plan)).2 e.label =
        some (entryOfStats (calculate_latency_stats (results.filterMap (fun r =>
          match r.latency_sec with
          | none => none
          | some v =>
            if r.phase = some e.label ∧ e.label ≠ "" then some v else none)))) := by
    intro e he
    simp only [collect_latency_breakdown, hpt, if_true, Option.getD_some]
    have hget := get_fold_insert_mem
      (fun lbl => entryOfStats (calculate_latency_stats
        (dictGetLat (gatherLatencies results true).2 lbl))) plan []
      e.label (List.mem_map_of_mem PhaseSpecL.label he)
    simp only [] at hget
    rw [hget, hbucket e.label]
  refine ⟨?_, ?_, hmain, ?_⟩
  · simp only [collect_latency_breakdown, hpt]
    unfold gatherLatencies
    rw [gather_fst true results ([], [])]
    rfl
  · intro l
    simp only [collect_latency_breakdown, hpt, if_true, Option.getD_some]
    have hkeys := keys_fold_insert
      (fun lbl => entryOfStats (calculate_latency_stats
        (dictGetLat (gatherLatencies results true).2 lbl))) plan [] l
    simp only [List.map_nil, List.not_mem_nil, false_or] at hkeys
    exact hkeys
  · intro e he hempt
    rw [hmain e he, hempt]
    rfl

/-- C6 witness: the breakdown contract instantiated at one phaseA row and a
two-phase plan whose phaseB bucket is empty. -/
theorem spec_C6_phase_breakdown_witness :
    samplePlan ≠ [] ∧
    ((collect_latency_breakdown [sampleRowOk] (some samplePlan)).1 =
        calculate_latency_stats ([sampleRowOk].filterMap Row.latency_sec) ∧
      (∀ l : String,
        l ∈ (collect_latency_breakdown [sampleRowOk] (some samplePlan)).2.map
            Prod.fst ↔
          l ∈ samplePlan.map PhaseSpecL.label) ∧
      (∀ e ∈ samplePlan,
        dictGetEntry? (collect_latency_breakdown [sampleRowOk] (some samplePlan)).2
            e.label =
          some (entryOfStats (calculate_latency_stats ([sampleRowOk].filterMap
            (fun r =>
              match r.latency_sec with
              | none => none
              | some v =>
                if r.phase = some e.label ∧ e.label ≠ "" then some v
                else none))))) ∧
      (∀ e ∈ samplePlan,
        [sampleRowOk].filterMap (fun r =>
            match r.latency_sec with
            | none => none
            | some v =>
              if r.phase = some e.label ∧ e.label ≠ "" then some v
              else none) = [] →
          dictGetEntry? (collect_latency_breakdown [sampleRowOk]
              (some samplePlan)).2 e.label =
            some noDataEntry)) :=
  ⟨by decide, spec_C6_phase_breakdown [sampleRowOk] samplePlan (by decide)⟩

theorem worker_row_index (o : AwaitOutcome) (ls : String) (so : ℚ) (it : QueueItem) :
    (worker_row o ls so it).index = it.index := by
  cases o <;> rfl

theorem buildScheduleAux_map_index (voters : List String) :
    ∀ (plan : List PhaseSpecL) (vi : ℕ),
      (buildScheduleAux voters plan vi).map SchedItem.index =
        List.range' vi (totalLen plan) := by
  intro plan
  induction plan with
  | nil => intro vi; rfl
  | cons e rest ih =>
    intro vi
    rw [buildScheduleAux, List.map_append, List.map_map]
    have h1 : (SchedItem.index ∘ fun j =>
        (⟨vi + j, voters.getD (vi + j) "", e.interval, e.label⟩ : SchedItem)) =
        fun j => vi + j := rfl
    rw [h1, ← List.range'_eq_map_range, ih (vi + e.count.toNat)]
    have h2 : totalLen (e :: rest) = e.count.toNat + totalLen rest := by
      unfold totalLen
      rw [List.map_cons, List.sum_cons]
    rw [h2]
    have h3 := List.range'_append vi e.count.toNat (totalLen rest) 1
    rw [one_mul] at h3
    rw [Nat.add_comm e.count.toNat (totalLen rest)]
    exact h3

theorem build_schedule_map_index (plan : List PhaseSpecL) (voters : List String) :
    (build_schedule plan voters).map SchedItem.index = List.range (totalLen plan) := by
  unfold build_schedule
  rw [buildScheduleAux_map_index, ← List.range_eq_range']

theorem build_schedule_length (plan : List PhaseSpecL) (voters : List String) :
    (build_schedule plan voters).length = totalLen plan := by
  have h := congrArg List.length (build_schedule_map_index plan voters)
  rwa [List.length_map, List.length_range] at h

theorem phasedLoop_map_row_index (net : Network) (clock : ℕ → ℚ) (ls : String)
    (so : ℚ) :
    ∀ (sched : List SchedItem) (pos : ℕ) (dl : ℚ) (cpos : ℕ),
      (phasedLoop net clock ls so sched pos dl cpos).map (fun r => r.row.index) =
        sched.map SchedItem.index := by
  intro sched
  induction sched with
  | nil => intro pos dl cpos; rfl
  | cons item rest ih =>
    intro pos dl cpos
    simp only [phasedLoop, List.map_cons]
    cases hsub : net.submit pos with
    | ok txh =>
      simp only [hsub]
      rw [ih]
      congr 1
      exact worker_row_index _ _ _ _
    | err msg =>
      simp only [hsub]
      rw [ih]
      rfl

theorem phasedLoop_length (net : Network) (clock : ℕ → ℚ) (ls : String) (so : ℚ)
    (sched : List SchedItem) (pos : ℕ) (dl : ℚ) (cpos : ℕ) :
    (phasedLoop net clock ls so sched pos dl cpos).length = sched.length := by
  have h := congrArg List.length (phasedLoop_map_row_index net clock ls so sched pos dl cpos)
  rwa [List.length_map, List.length_map] at h

theorem seqLoop_map_index (net : Network) (clock : ℕ → ℚ) (ls : String) (so : ℚ) :
    ∀ (voters : List String) (index : ℕ) (cpos : ℕ),
      (seqLoop net clock ls so voters index cpos).map (fun br => br.2.index) =
        List.range' index voters.length := by
  intro voters
  induction voters with
  | nil => intro index cpos; rfl
  | cons v rest ih =>
    intro index cpos
    simp only [seqLoop, List.map_cons, List.length_cons, List.range'_succ]
    cases hsub : net.submit index with
    | ok txh =>
      simp only [hsub]
      rw [ih]
      congr 1
      exact worker_row_index _ _ _ _
    | err msg =>
      simp only [hsub]
      rw [ih]
      rfl

theorem seqLoop_length (net : Network) (clock : ℕ → ℚ) (ls : String) (so : ℚ)
    (voters : List String) (index : ℕ) (cpos : ℕ) :
    (seqLoop net clock ls so voters index cpos).length = voters.length := by
  have h := congrArg List.length (seqLoop_map_index net clock ls so voters index cpos)
  rwa [List.length_map, List.length_range'] at h

theorem sort_by_index_restore (canonical observed : List Row)
    (hidx : canonical.map Row.index = List.range canonical.length)
    (hperm : observed.Perm canonical) :
    observed.length = canonical.length ∧
    (observed.map Row.index).Perm (List.range canonical.length) ∧
    sort_by_index observed = canonical := by
  have hlen : observed.length = canonical.length := hperm.length_eq
  have hmapperm : (observed.map Row.index).Perm (List.range canonical.length) := by
    rw [← hidx]
    exact hperm.map Row.index
  refine ⟨hlen, hmapperm, ?_⟩
  have hperm2 : (sort_by_index observed).Perm canonical :=
    (List.perm_insertionSort rowLE observed).trans hperm
  have hsortle : List.Sorted rowLE (sort_by_index observed) :=
    List.sorted_insertionSort rowLE observed
  have hnodup_canon : (canonical.map Row.index).Nodup := by
    rw [hidx]
    exact List.nodup_range canonical.length
  have hnodup_sorted : ((sort_by_index observed).map Row.index).Nodup :=
    ((hperm2.map Row.index).nodup_iff).mpr hnodup_canon
  have hlt_sorted : List.Sorted rowLT (sort_by_index observed) := by
    have hne : (sort_by_index observed).Pairwise
        (fun a b => Row.index a ≠ Row.index b) :=
      (List.pairwise_map).mp hnodup_sorted
    have hand := List.Pairwise.and hsortle hne
    exact hand.imp (fun h => lt_of_le_of_ne h.1 h.2)
  have hlt_canon : List.Sorted rowLT canonical := by
    have h2 : (canonical.map Row.index).Pairwise (· < ·) := by
      rw [hidx]
      exact List.pairwise_lt_range canonical.length
    rw [List.pairwise_map] at h2
    exact h2
  exact List.eq_of_perm_of_sorted hperm2 hlt_sorted hlt_canon

/-- C1: a full run (phased or sequential) yields exactly one result row per
scheduled call even when submissions fail, the row indices are exactly the
contiguous set `[0, totalCalls)` with no duplicates, and sorting any
arrival-order permutation of the rows by index reproduces submission
order. -/
theorem spec_C1_run_invariants (plan : List PhaseSpecL) (voters labels : List String)
    (net : Network) (clock : ℕ → ℚ) (observed observed2 : List Row)
    (hguard : total_required plan ≤ (voters.length : ℤ))
    (hperm : observed.Perm
      ((phasedTrace plan voters labels net clock).map IterRecord.row))
    (hperm2 : observed2.Perm ((seqTrace voters labels net clock).map Prod.snd)) :
    execute_phased_model plan voters labels net clock =
      .ok (phasedTrace plan voters labels net clock) ∧
    (phasedTrace plan voters labels net clock).length =
      (build_schedule plan voters).length ∧
    observed.length = (build_schedule plan voters).length ∧
    (observed.map Row.index).Perm (List.range (build_schedule plan voters).length) ∧
    sort_by_index observed =
      (phasedTrace plan voters labels net clock).map IterRecord.row ∧
    observed2.length = voters.length ∧
    (observed2.map Row.index).Perm (List.range voters.length) ∧
    sort_by_index observed2 = (seqTrace voters labels net clock).map Prod.snd := by
  have hexec : execute_phased_model plan voters labels net clock =
      .ok (phasedTrace plan voters labels net clock) := by
    unfold execute_phased_model
    rw [if_neg (not_lt.mpr hguard)]
  have htracelen : (phasedTrace plan voters labels net clock).length =
      (build_schedule plan voters).length :=
    phasedLoop_length net clock (label_string_of labels) (clock 0)
      (build_schedule plan voters) 0 (clock 0) 1
  have hmap1 : ((phasedTrace plan voters labels net clock).map IterRecord.row).map
      Row.index = (build_schedule plan voters).map SchedItem.index := by
    rw [List.map_map]
    exact phasedLoop_map_row_index net clock (label_string_of labels) (clock 0)
      (build_schedule plan voters) 0 (clock 0) 1
  have hlen1 : ((phasedTrace plan voters labels net clock).map IterRecord.row).length =
      (build_schedule plan voters).length := by
    rw [List.length_map]
    exact htracelen
  have hidx1 : ((phasedTrace plan voters labels net clock).map IterRecord.row).map
      Row.index =
      List.range ((phasedTrace plan voters labels net clock).map
        IterRecord.row).length := by
    rw [hmap1, hlen1, build_schedule_map_index, build_schedule_length]
  obtain ⟨ha, hb, hc⟩ := sort_by_index_restore _ observed hidx1 hperm
  have hmap2 : ((seqTrace voters labels net clock).map Prod.snd).map Row.index =
      List.range' 0 voters.length := by
    rw [List.map_map]
    exact seqLoop_map_index net clock (label_string_of labels) (clock 0) voters 0 1
  have hlen2 : ((seqTrace voters labels net clock).map Prod.snd).length =
      voters.length := by
    rw [List.length_map]
    exact seqLoop_length net clock (label_string_of labels) (clock 0) voters 0 1
  have hidx2 : ((seqTrace voters labels net clock).map Prod.snd).map Row.index =
      List.range ((seqTrace voters labels net clock).map Prod.snd).length := by
    rw [hmap2, hlen2, List.range_eq_range']
  obtain ⟨hd, he2, hf⟩ := sort_by_index_restore _ observed2 hidx2 hperm2
  rw [hlen1] at ha hb
  rw [hlen2] at hd he2
  exact ⟨hexec, htracelen, ha, hb, hc, hd, he2, hf⟩

/-- C1 witness: the invariants instantiated at a two-phase plan over two
voters, with the second submission failing and the arrival order taken to be
the canonical one. -/
theorem spec_C1_run_invariants_witness :
    total_required samplePlan ≤ ((["v0", "v1"] : List String).length : ℤ) ∧
    (execute_phased_model samplePlan ["v0", "v1"] [] sampleNet sampleClock =
        .ok (phasedTrace samplePlan ["v0", "v1"] [] sampleNet sampleClock) ∧
      (phasedTrace samplePlan ["v0", "v1"] [] sampleNet sampleClock).length =
        (build_schedule samplePlan ["v0", "v1"]).length ∧
      ((phasedTrace samplePlan ["v0", "v1"] [] sampleNet sampleClock).map
          IterRecord.row).length =
        (build_schedule samplePlan ["v0", "v1"]).length ∧
      (((phasedTrace samplePlan ["v0", "v1"] [] sampleNet sampleClock).map
          IterRecord.row).map Row.index).Perm
        (List.range (build_schedule samplePlan ["v0", "v1"]).length) ∧
      sort_by_index ((phasedTrace samplePlan ["v0", "v1"] [] sampleNet
          sampleClock).map IterRecord.row) =
        (phasedTrace samplePlan ["v0", "v1"] [] sampleNet sampleClock).map
          IterRecord.row ∧
      ((seqTrace ["v0", "v1"] [] sampleNet sampleClock).map Prod.snd).length =
        (["v0", "v1"] : List String).length ∧
      (((seqTrace ["v0", "v1"] [] sampleNet sampleClock).map Prod.snd).map
          Row.index).Perm (List.range (["v0", "v1"] : List String).length) ∧
      sort_by_index ((seqTrace ["v0", "v1"] [] sampleNet sampleClock).map
          Prod.snd) = (seqTrace ["v0", "v1"] [] sampleNet sampleClock).map
          Prod.snd) :=
  ⟨by decide,
   spec_C1_run_invariants samplePlan ["v0", "v1"] [] sampleNet sampleClock _ _
     (by decide) (List.Perm.refl _) (List.Perm.refl _)⟩

theorem phasedLoop_chained (net : Network) (clock : ℕ → ℚ) (ls : String) (so : ℚ) :
    ∀ (sched : List SchedItem) (pos : ℕ) (dl : ℚ) (cpos : ℕ),
      DeadlineChained dl (phasedLoop net clock ls so sched pos dl cpos) := by
  intro sched
  induction sched with
  | nil => intro pos dl cpos; trivial
  | cons item rest ih =>
    intro pos dl cpos
    simp only [phasedLoop, DeadlineChained]
    exact ⟨by trivial, ih (pos + 1) _ _⟩

theorem phasedLoop_get_facts (net : Network) (clock : ℕ → ℚ) (ls : String) (so : ℚ) :
    ∀ (sched : List SchedItem) (pos : ℕ) (dl : ℚ) (cpos : ℕ) (i : ℕ) (r : IterRecord),
      (phasedLoop net clock ls so sched pos dl cpos).get? i = some r →
      r.pos = pos + i ∧
      r.deadlineAfter = max (r.deadlineBefore + r.interval) r.attemptNow ∧
      (pos + i = 0 → r.checkedNow = none ∧ r.slept = none) ∧
      (pos + i ≠ 0 → ∃ now, r.checkedNow = some now ∧
        r.slept = (if 0 < r.deadlineBefore - now then some (r.deadlineBefore - now)
                   else none)) := by
  intro sched
  induction sched with
  | nil => intro pos dl cpos i r h; cases h
  | cons item rest ih =>
    intro pos dl cpos i r h
    cases i with
    | zero =>
      simp only [phasedLoop, List.get?_cons_zero] at h
      have hr := Option.some.inj h
      subst hr
      refine ⟨by simp, rfl, ?_, ?_⟩
      · intro h0
        have hp0 : pos = 0 := by omega
        subst hp0
        constructor <;> simp
      · intro hne
        have hp : 0 < pos := Nat.pos_of_ne_zero (by omega)
        exact ⟨clock cpos, by simp [hp], by simp [hp]⟩
    | succ n =>
      simp only [phasedLoop, List.get?_cons_succ] at h
      have hfacts := ih (pos + 1) _ _ n r h
      refine ⟨by rw [hfacts.1]; omega, hfacts.2.1, ?_, ?_⟩
      · intro h0
        omega
      · intro _
        exact hfacts.2.2.2 (by omega)

/-- C4: in the phased submitter, the first scheduled call performs no pacing
check and no sleep; every later call reads the clock and sleeps exactly when
the deadline lies strictly in the future (for the remaining duration); and
after every submission attempt — success or failure alike, since the update
is in the model of the `finally` block — the next deadline is
`max(deadline + interval, now)`, each iteration starting from the deadline
the previous one left. -/
theorem spec_C4_pacing (plan : List PhaseSpecL) (voters labels : List String)
    (net : Network) (clock : ℕ → ℚ) :
    DeadlineChained (clock 0) (phasedTrace plan voters labels net clock) ∧
    (∀ (i : ℕ) (r : IterRecord),
      (phasedTrace plan voters labels net clock).get? i = some r →
      r.pos = i ∧
      r.deadlineAfter = max (r.deadlineBefore + r.interval) r.attemptNow ∧
      (i = 0 → r.checkedNow = none ∧ r.slept = none) ∧
      (i ≠ 0 → ∃ now, r.checkedNow = some now ∧
        r.slept = (if 0 < r.deadlineBefore - now then some (r.deadlineBefore - now)
                   else none))) := by
  constructor
  · exact phasedLoop_chained net clock (label_string_of labels) (clock 0)
      (build_schedule plan voters) 0 (clock 0) 1
  · intro i r h
    have hfacts := phasedLoop_get_facts net clock (label_string_of labels) (clock 0)
      (build_schedule plan voters) 0 (clock 0) 1 i r h
    refine ⟨by rw [hfacts.1]; omega, hfacts.2.1, ?_, ?_⟩
    · intro h0
      exact hfacts.2.2.1 (by omega)
    · intro hne
      exact hfacts.2.2.2 (by omega)

/-- C4 witness: the pacing facts instantiated at the sample two-phase run. -/
theorem spec_C4_pacing_witness :
    DeadlineChained (sampleClock 0)
      (phasedTrace samplePlan ["v0", "v1"] [] sampleNet sampleClock) ∧
    (∀ (i : ℕ) (r : IterRecord),
      (phasedTrace samplePlan ["v0", "v1"] [] sampleNet sampleClock).get? i =
        some r →
      r.pos = i ∧
      r.deadlineAfter = max (r.deadlineBefore + r.interval) r.attemptNow ∧
      (i = 0 → r.checkedNow = none ∧ r.slept = none) ∧
      (i ≠ 0 → ∃ now, r.checkedNow = some now ∧
        r.slept = (if 0 < r.deadlineBefore - now then some (r.deadlineBefore - now)
                   else none))) :=
  spec_C4_pacing samplePlan ["v0", "v1"] [] sampleNet sampleClock

theorem phasedLoop_get_err (net : Network) (clock : ℕ → ℚ) (ls : String) (so : ℚ) :
    ∀ (sched : List SchedItem) (pos : ℕ) (dl : ℚ) (cpos : ℕ) (i : ℕ) (msg : String),
      net.submit (pos + i) = .err msg → i < sched.length →
      ∃ rec, (phasedLoop net clock ls so sched pos dl cpos).get? i = some rec ∧
        rec.queued = false ∧ rec.row.index = rec.schedIndex ∧
        rec.row.status = 0 ∧ rec.row.latency_sec = none ∧
        rec.row.error = some msg ∧ rec.row.tx_hash = none ∧
        rec.row.completed_sec = none ∧ rec.row.gas_used = none := by
  intro sched
  induction sched with
  | nil => intro pos dl cpos i msg hsub hlt; exact absurd hlt (Nat.not_lt_zero i)
  | cons item rest ih =>
    intro pos dl cpos i msg hsub hlt
    cases i with
    | zero =>
      rw [Nat.add_zero] at hsub
      simp only [phasedLoop, List.get?_cons_zero, hsub]
      exact ⟨_, rfl, rfl, rfl, rfl, rfl, rfl, rfl, rfl, rfl⟩
    | succ n =>
      simp only [phasedLoop, List.get?_cons_succ]
      have harg : pos + 1 + n = pos + (n + 1) := by omega
      refine ih (pos + 1) _ _ n msg ?_ ?_
      · rw [harg]
        exact hsub
      · have := hlt
        simp only [List.length_cons] at this
        omega

theorem phasedLoop_congr_off (net net2 : Network) (clock : ℕ → ℚ) (ls : String)
    (so : ℚ) (i : ℕ)
    (hagree : ∀ j, j ≠ i → net2.submit j = net.submit j ∧ net2.await j = net.await j) :
    ∀ (sched : List SchedItem) (pos : ℕ) (dl : ℚ) (cpos : ℕ) (j : ℕ),
      pos + j ≠ i →
      (phasedLoop net2 clock ls so sched pos dl cpos).get? j =
        (phasedLoop net clock ls so sched pos dl cpos).get? j := by
  intro sched
  induction sched with
  | nil => intro pos dl cpos j hj; rfl
  | cons item rest ih =>
    intro pos dl cpos j hj
    cases j with
    | zero =>
      simp only [phasedLoop, List.get?_cons_zero]
      have h1 := hagree pos (by omega)
      rw [h1.1, h1.2]
    | succ n =>
      simp only [phasedLoop, List.get?_cons_succ]
      exact ih (pos + 1) _ _ n (by omega)

theorem seqLoop_get_err (net : Network) (clock : ℕ → ℚ) (ls : String) (so : ℚ) :
    ∀ (voters : List String) (index : ℕ) (cpos : ℕ) (i : ℕ) (msg : String),
      net.submit (index + i) = .err msg → i < voters.length →
      ∃ br, (seqLoop net clock ls so voters index cpos).get? i = some br ∧
        br.1 = false ∧ br.2.index = index + i ∧ br.2.status = 0 ∧
        br.2.latency_sec = none ∧ br.2.error = some msg ∧ br.2.tx_hash = none ∧
        br.2.completed_sec = none ∧ br.2.gas_used = none := by
  intro voters
  induction voters with
  | nil => intro index cpos i msg hsub hlt; exact absurd hlt (Nat.not_lt_zero i)
  | cons v rest ih =>
    intro index cpos i msg hsub hlt
    cases i with
    | zero =>
      rw [Nat.add_zero] at hsub
      simp only [seqLoop, List.get?_cons_zero, hsub]
      exact ⟨_, rfl, rfl, rfl, rfl, rfl, rfl, rfl, rfl, rfl⟩
    | succ n =>
      simp only [seqLoop, List.get?_cons_succ]
      have harg : index + 1 + n = index + (n + 1) := by omega
      have hres := ih (index + 1) (cpos + 2) n msg (by rw [harg]; exact hsub)
        (by simp only [List.length_cons] at hlt; omega)
      obtain ⟨br, hget, h1, h2, h3, h4, h5, h6, h7, h8⟩ := hres
      exact ⟨br, hget, h1, by rw [h2, harg], h3, h4, h5, h6, h7, h8⟩

/-- C5: when submitting a call raises, the submitter synthesizes a terminal
failure row directly — failure status, null latency, null handle, the error
message as detail — the call is never enqueued for the collector pool
(`queued = false` marks a direct append to the shared list), every other
scheduled call's record is unchanged if the network behaves identically off
the failing position, and the sequential loop behaves the same way. -/
theorem spec_C5_submission_failure (plan : List PhaseSpecL)
    (voters labels : List String) (net : Network) (clock : ℕ → ℚ) (i : ℕ)
    (msg : String) (hsub : net.submit i = .err msg) :
    (i < (build_schedule plan voters).length →
      ∃ rec, (phasedTrace plan voters labels net clock).get? i = some rec ∧
        rec.queued = false ∧ rec.row.index = rec.schedIndex ∧
        rec.row.status = 0 ∧ rec.row.latency_sec = none ∧
        rec.row.error = some msg ∧ rec.row.tx_hash = none ∧
        rec.row.completed_sec = none ∧ rec.row.gas_used = none) ∧
    (∀ net2 : Network,
      (∀ j, j ≠ i → net2.submit j = net.submit j ∧ net2.await j = net.await j) →
      ∀ j, j ≠ i →
        (phasedTrace plan voters labels net2 clock).get? j =
          (phasedTrace plan voters labels net clock).get? j) ∧
    (i < voters.length →
      ∃ br, (seqTrace voters labels net clock).get? i = some br ∧
        br.1 = false ∧ br.2.index = i ∧ br.2.status = 0 ∧
        br.2.latency_sec = none ∧ br.2.error = some msg ∧
        br.2.tx_hash = none ∧ br.2.completed_sec = none ∧
        br.2.gas_used = none) := by
  refine ⟨?_, ?_, ?_⟩
  · intro hlt
    exact phasedLoop_get_err net clock (label_string_of labels) (clock 0)
      (build_schedule plan voters) 0 (clock 0) 1 i msg (by rwa [Nat.zero_add]) hlt
  · intro net2 hagree j hj
    exact phasedLoop_congr_off net net2 clock (label_string_of labels) (clock 0) i
      hagree (build_schedule plan voters) 0 (clock 0) 1 j (by omega)
  · intro hlt
    have hres := seqLoop_get_err net clock (label_string_of labels) (clock 0)
      voters 0 1 i msg (by rwa [Nat.zero_add]) hlt
    obtain ⟨br, hget, h1, h2, h3, h4, h5, h6, h7, h8⟩ := hres
    exact ⟨br, hget, h1, by rw [h2, Nat.zero_add], h3, h4, h5, h6, h7, h8⟩

/-- C5 witness: the failure contract instantiated at the sample run, whose
second submission (position 1) raises `"boom"`, with the failure facts and
the off-position independence discharged concretely. -/
theorem spec_C5_submission_failure_witness :
    sampleNet.submit 1 = .err "boom" ∧
    1 < (build_schedule samplePlan ["v0", "v1"]).length ∧
    (∃ rec, (phasedTrace samplePlan ["v0", "v1"] [] sampleNet sampleClock).get? 1 =
        some rec ∧
      rec.queued = false ∧ rec.row.index = rec.schedIndex ∧
      rec.row.status = 0 ∧ rec.row.latency_sec = none ∧
      rec.row.error = some "boom" ∧ rec.row.tx_hash = none ∧
      rec.row.completed_sec = none ∧ rec.row.gas_used = none) ∧
    (1 : ℕ) < (["v0", "v1"] : List String).length ∧
    (∃ br, (seqTrace ["v0", "v1"] [] sampleNet sampleClock).get? 1 = some br ∧
      br.1 = false ∧ br.2.index = 1 ∧ br.2.status = 0 ∧
      br.2.latency_sec = none ∧ br.2.error = some "boom" ∧
      br.2.tx_hash = none ∧ br.2.completed_sec = none ∧ br.2.gas_used = none) :=
  ⟨rfl, by decide,
   (spec_C5_submission_failure samplePlan ["v0", "v1"] [] sampleNet sampleClock 1
      "boom" rfl).1 (by decide),
   by decide,
   (spec_C5_submission_failure samplePlan ["v0", "v1"] [] sampleNet sampleClock 1
      "boom" rfl).2.2 (by decide)⟩

end Quorum
